import Mathlib

/-!
Verification of the Transaction Orchestration Engine.

This file gives a shallow embedding of the engine's data model and
operations and proves the spec's claims about them.  Route-layer code
(`status.ts`, `get-logs.ts`, `send-transaction-batch`, `erc20claimTo`,
`manage-chain-indexers.ts`, `getSmartWalletV5.ts`) is embedded from the
source.  The engine core (Transaction Store, Nonce Manager, Submission
Worker, Confirmation & Retry Worker, and the indexer-registry internals)
is not present under the provided sources, only its callers are, so those
definitions are modelled from the specification and are marked as such in
their doc comments.
-/

namespace Engine

/-- Lifecycle states of a transaction record (spec §3, `status`). -/
inductive Status where
  | queued
  | submitted
  | mined
  | errored
  | cancelled
deriving DecidableEq, Repr

/-- A status is terminal when the record can no longer change (spec §3:
`mined`, `errored` are terminal, plus `cancelled`). -/
def Status.isTerminal : Status → Bool
  | .mined => true
  | .errored => true
  | .cancelled => true
  | .queued => false
  | .submitted => false

/-- Error kinds surfaced by the Store and route layer (spec §7). -/
inductive StoreError where
  | NotFound
  | InvalidTransition
  | ValidationError
deriving DecidableEq, Repr

end Engine

namespace Engine.TxStore

open Engine

/-- A stored transaction record, restricted to the fields the Store
contract manipulates (spec §3 TransactionRequest). -/
structure Rec where
  id : Nat
  chainId : Nat
  sender : Nat
  nonce : Option Nat
  status : Status
  idempotencyKey : Option Nat
  /-- records whose terminal success is recent enough to still collide on
  an idempotency key (spec §3: "recently-succeeded") -/
  recent : Bool
deriving DecidableEq, Repr

/-- The Transaction Store, an id-keyed collection of records. -/
abbrev Store := List Rec

/-- `get(id) -> record | NotFound` (spec §4.1): first record with the id. -/
def getRec (s : Store) (id : Nat) : Option Rec :=
  s.find? (fun r => r.id == id)

/-- The status transitions the engine permits (spec §3 lifecycle, §5, §8):
queued→submitted, submitted→mined, submitted→errored, queued→cancelled,
queued→errored (fatal local failure, spec §4.3), submitted→submitted
(re-price, spec §4.4). -/
def allowedTransitions : List (Status × Status) :=
  [(.queued, .submitted), (.submitted, .mined), (.submitted, .errored),
   (.queued, .cancelled), (.queued, .errored), (.submitted, .submitted)]

/-- Modelled from the spec: `updateStatus(id, transition, fields)` of the
Transaction Store (spec §4.1), whose implementation is not among the
provided sources.  It is a compare-and-set on the current status: the
update succeeds only if the record exists, its current status is exactly
the transition's source, and the transition is one the lifecycle permits;
otherwise it fails and the store is left unchanged. -/
def updateStatus (s : Store) (id : Nat) (src dst : Status) :
    Except StoreError Store :=
  match getRec s id with
  | none => .error .NotFound
  | some r =>
    if r.status = src ∧ (src, dst) ∈ allowedTransitions then
      .ok (s.map (fun r' => if r'.id == id then { r' with status := dst } else r'))
    else
      .error .InvalidTransition

/-- Modelled from the spec: `markCancelled(id)` (spec §4.1) fails with
`InvalidTransition` unless the current status is exactly `queued`, in
which case the record becomes `cancelled`. -/
def markCancelled (s : Store) (id : Nat) : Except StoreError Store :=
  updateStatus s id .queued .cancelled

/-- Status of the record with the given id, when present. -/
def statusOf (s : Store) (id : Nat) : Option Status :=
  (getRec s id).map Rec.status

/-- A two-record store used to exercise the Store theorems on concrete
data. -/
def demoStore : Store :=
  [⟨0, 137, 5, none, .queued, none, false⟩,
   ⟨1, 137, 5, none, .queued, none, false⟩]

/-- `demoStore` after the Submission Worker claims record 0. -/
def demoStore1 : Store :=
  [⟨0, 137, 5, none, .submitted, none, false⟩,
   ⟨1, 137, 5, none, .queued, none, false⟩]

end Engine.TxStore

namespace Engine.Enq

open Engine Engine.TxStore

/-- The queue as seen by `insertTransaction`: the stored records plus the
id generator (ids are opaque and fresh; we model them as a counter). -/
structure QueueState where
  recs : List Rec
  nextId : Nat
deriving DecidableEq, Repr

/-- The data of one enqueue request, as passed by the route layer to
`insertTransaction` / `queueTransaction` (`part_000`: chain id, backend
wallet address, optional `x-idempotency-key` header).  `valid` abstracts
the input validation the engine performs before creating a record
(spec §7: `ValidationError` is "rejected before a Store record is
created"). -/
structure InsertReq where
  chainId : Nat
  sender : Nat
  idempotencyKey : Option Nat
  valid : Bool
deriving DecidableEq, Repr

/-- A record collides with idempotency key `k` when it carries the same
key and is live (non-terminal) or recently succeeded (spec §3, §4.1). -/
def idemMatch (k : Nat) (r : Rec) : Bool :=
  r.idempotencyKey == some k && (!r.status.isTerminal || r.recent)

/-- The record a fresh insert creates: status `queued`, no nonce yet,
carrying the caller's idempotency key. -/
def mkRec (id : Nat) (req : InsertReq) : Rec :=
  ⟨id, req.chainId, req.sender, none, .queued, req.idempotencyKey, false⟩

/-- Modelled from the spec: `insertTransaction` (the enqueue operation,
spec §4.1 `insert` and §6 `enqueue`), whose implementation is not among
the provided sources (only callers such as `erc20claimTo` and
`sendTransactionBatch` are).  Invalid input is rejected before any record
is created; a repeated idempotency key against a live or
recently-succeeded record returns the prior id and creates nothing;
otherwise exactly one new `queued` record is created under a fresh id. -/
def insertTransaction (st : QueueState) (req : InsertReq) :
    Except StoreError (Nat × QueueState) :=
  if req.valid = false then .error .ValidationError
  else
    match req.idempotencyKey with
    | some k =>
      match st.recs.find? (idemMatch k) with
      | some r => .ok (r.id, st)
      | none => .ok (st.nextId, ⟨st.recs ++ [mkRec st.nextId req], st.nextId + 1⟩)
    | none => .ok (st.nextId, ⟨st.recs ++ [mkRec st.nextId req], st.nextId + 1⟩)

/-- The loop body of `sendTransactionBatch` (`part_000` lines 67-90): one
`insertTransaction` per request, strictly in list order, collecting queue
ids; a failure aborts the loop but keeps the records already created. -/
def sendTransactionBatch (st : QueueState) :
    List InsertReq → Except StoreError (List Nat) × QueueState
  | [] => (.ok [], st)
  | req :: rest =>
    match insertTransaction st req with
    | .error e => (.error e, st)
    | .ok (qid, st') =>
      match sendTransactionBatch st' rest with
      | (.ok ids, st'') => (.ok (qid :: ids), st'')
      | (.error e, st'') => (.error e, st'')

/-- A queue holding one live record under idempotency key 42, used to
exercise the enqueue theorems on concrete data. -/
def enqDemoState : QueueState :=
  ⟨[⟨7, 1, 2, none, .submitted, some 42, false⟩], 9⟩

/-- A request repeating key 42 against `enqDemoState`. -/
def enqDemoReq : InsertReq := ⟨1, 2, some 42, true⟩

/-- A request with a fresh key 99 against `enqDemoState`. -/
def enqDemoReq2 : InsertReq := ⟨1, 2, some 99, true⟩

/-- A batch of two key-less valid requests, used to exercise the batch
theorem on concrete data. -/
def batchDemoReqs : List InsertReq :=
  [⟨1, 2, none, true⟩, ⟨1, 3, none, true⟩]

/-- A key-less request that fails validation, used to exercise the batch
theorem's non-atomicity on concrete data. -/
def batchDemoBad : InsertReq := ⟨1, 4, none, false⟩

end Engine.Enq

namespace Engine.Routes

open Engine

/-- The error object built by `createCustomError` in the route layer
(`middleware/error`). -/
structure CustomError where
  message : String
  statusCode : Nat
  code : String
deriving DecidableEq, Repr

/-- `createCustomError(message, statusCode, code)`. -/
def createCustomError (message : String) (statusCode : Nat) (code : String) :
    CustomError :=
  ⟨message, statusCode, code⟩

/-- A transaction as stored in `TransactionDB`, restricted to the fields
the status and logs routes read. -/
structure Txn where
  queueId : String
  chainId : Nat
  status : Status
  transactionHash : Option String
deriving DecidableEq, Repr

/-- `TransactionDB`: queue-id-keyed storage of transactions. -/
abbrev TransactionDB := List (String × Txn)

/-- `TransactionDB.get(queueId)`. -/
def dbGet (db : TransactionDB) (queueId : String) : Option Txn :=
  (db.find? (fun p => p.1 == queueId)).map Prod.snd

/-- The response view built by `toTransactionSchema`
(`schemas/transaction`): a projection of the stored record. -/
structure TxnView where
  queueId : String
  chainId : Nat
  status : Status
  transactionHash : Option String
deriving DecidableEq, Repr

/-- `toTransactionSchema(transaction)`: the view projection of the
stored record returned by the status route. -/
def toTransactionSchema (t : Txn) : TxnView :=
  ⟨t.queueId, t.chainId, t.status, t.transactionHash⟩

/-- The reply of `GET /transaction/status/:queueId`
(`status.ts` lines 73-88): read the record from `TransactionDB`, throw
`TRANSACTION_NOT_FOUND` (a 400 client error) when absent, otherwise reply
with the `toTransactionSchema` view. -/
def getTransactionStatusReply (db : TransactionDB) (queueId : String) :
    Except CustomError TxnView :=
  match dbGet db queueId with
  | none =>
    .error (createCustomError "Transaction not found." 400 "TRANSACTION_NOT_FOUND")
  | some transaction => .ok (toTransactionSchema transaction)

/-- The status-route handler paired with the database it leaves behind:
the handler only reads `TransactionDB`, so the stored state is returned
as is. -/
def getTransactionStatusRoute (db : TransactionDB) (queueId : String) :
    Except CustomError TxnView × TransactionDB :=
  (getTransactionStatusReply db queueId, db)

/-- One raw receipt log, restricted to the fields the logs route
forwards. -/
structure LogEntry where
  address : String
  data : String
deriving DecidableEq, Repr

/-- A transaction receipt as returned by `eth_getTransactionReceipt`:
the recipient `to` (absent for contract deployments) and its logs. -/
structure Receipt where
  toAddr : Option String
  logs : List LogEntry
deriving DecidableEq, Repr

/-- The tail of the `GET /transaction/logs` handler after the hash has
been resolved (`get-logs.ts` lines 163-249): fetch the receipt and
reply with its raw or parsed logs.  External collaborators are
parameters: `getReceipt` is the RPC receipt fetch (`none` models the
thrown fetch failure) and `parseResult` is the ABI-resolution plus
event-parsing tail used when `parseLogs` is true. -/
def logsFromHash (getReceipt : String → Option Receipt)
    (parseLogsFlag : Bool)
    (parseResult : Receipt → Except CustomError (List LogEntry))
    (hash : Option String) : Except CustomError (List LogEntry) :=
  match hash with
  | none =>
    .error (createCustomError "Could not find transaction, or transaction is not mined."
        400 "TRANSACTION_NOT_MINED")
  | some h =>
    match getReceipt h with
    | none =>
      .error (createCustomError
          "Unable to get transaction receipt. The transaction may not have been mined yet."
          400 "TRANSACTION_NOT_MINED")
    | some transactionReceipt =>
      if parseLogsFlag = false then .ok transactionReceipt.logs
      else
        match transactionReceipt.toAddr with
        | none =>
          .error (createCustomError "Transaction logs are only supported for contract calls."
              400 "TRANSACTION_LOGS_UNAVAILABLE")
        | some _ => parseResult transactionReceipt

/-- The reply of `GET /transaction/logs` (`get-logs.ts` lines 130-250):
reject requests naming neither id, resolve the transaction hash (from the
stored record only when its status is exactly `mined`, else directly from
the caller-supplied hash), and continue with `logsFromHash`. -/
def getTransactionLogsReply (db : TransactionDB)
    (getReceipt : String → Option Receipt)
    (parseLogsFlag : Bool)
    (parseResult : Receipt → Except CustomError (List LogEntry))
    (queueId : Option String) (transactionHash : Option String) :
    Except CustomError (List LogEntry) :=
  match queueId, transactionHash with
  | none, none =>
    .error (createCustomError "Either a queue ID or transaction hash must be provided."
        400 "MISSING_TRANSACTION_ID")
  | some qid, _ =>
    logsFromHash getReceipt parseLogsFlag parseResult
      (match dbGet db qid with
       | some transaction =>
         if transaction.status = .mined then transaction.transactionHash else none
       | none => none)
  | none, some th => logsFromHash getReceipt parseLogsFlag parseResult (some th)

/-- The logs-route handler paired with the database it leaves behind: the
handler only reads `TransactionDB`, so the stored state is returned as
is. -/
def getTransactionLogs (db : TransactionDB)
    (getReceipt : String → Option Receipt)
    (parseLogsFlag : Bool)
    (parseResult : Receipt → Except CustomError (List LogEntry))
    (queueId : Option String) (transactionHash : Option String) :
    Except CustomError (List LogEntry) × TransactionDB :=
  (getTransactionLogsReply db getReceipt parseLogsFlag parseResult queueId transactionHash, db)

/-- A one-record database used to exercise the route theorems on
concrete data. -/
def demoDB : TransactionDB :=
  [("q1", ⟨"q1", 137, .submitted, some "0xabc"⟩)]

end Engine.Routes

namespace Engine.WalletCache

/-- A chain object; `getSmartWalletV5` only reads `chain.id`. -/
structure Chain where
  id : Nat
deriving DecidableEq, Repr

/-- A connected account/wallet as produced by the thirdweb SDK; opaque to
the cache, modelled by the data it was built from. -/
structure Account where
  chainId : Nat
  factoryAddress : String
  personalAddress : String
deriving DecidableEq, Repr

/-- `smartWalletsCache`, a string-keyed map of connected wallets. -/
abbrev WalletMap := List (String × Account)

/-- `smartWalletsCache.get(key)`. -/
def mapGet (cache : WalletMap) (k : String) : Option Account :=
  (cache.find? (fun p => p.1 == k)).map Prod.snd

/-- `getSmartWalletV5` (`getSmartWalletV5.ts` lines 16-63).  External SDK
calls are parameters: `readFactory` is the `factory()` read used when no
factory address is supplied, `getAccount` resolves the EOA account, and
`connect` is `smartWallet({...}).connect({...})`.  The cache key is
`` `${chain.id}-${accountAddress}-${from}` `` — the factory address is
not part of the key — and a hit returns the cached wallet before any SDK
call.  The updated cache is returned (`smartWalletsCache.set`). -/
def getSmartWalletV5 (readFactory : Chain → String → String)
    (getAccount : Nat → String → Account)
    (connect : Chain → String → Account → Account)
    (cache : WalletMap) (chain : Chain)
    (accountAddress fromAddr : String)
    (accountFactoryAddress : Option String) : Account × WalletMap :=
  let cacheKey := toString chain.id ++ "-" ++ accountAddress ++ "-" ++ fromAddr
  match mapGet cache cacheKey with
  | some cachedWallet => (cachedWallet, cache)
  | none =>
    let factoryAddress :=
      match accountFactoryAddress with
      | some f => f
      | none => readFactory chain accountAddress
    let account := getAccount chain.id fromAddr
    let smartAccount := connect chain factoryAddress account
    (smartAccount, (cacheKey, smartAccount) :: cache)

end Engine.WalletCache

namespace Engine.Retry

open Engine

/-- Why a record reached `errored` (spec §7 taxonomy, restricted to the
outcomes the Confirmation & Retry Worker produces). -/
inductive FailureReason where
  | timeout
  | rejected
deriving DecidableEq, Repr

/-- The slice of a record the Confirmation & Retry Worker manipulates
(spec §3: `status`, `retryCount`, `errorMessage`). -/
structure RRec where
  status : Status
  retryCount : Nat
  errorMessage : Option FailureReason
deriving DecidableEq, Repr

/-- Modelled from the spec: one pass of the Confirmation & Retry Worker
(spec §4.4) over a single stale `submitted` record on a chain that never
confirms it — the worker implementation is not among the provided
sources.  While within the escalation bound the record is re-priced with
a higher fee, incrementing `retryCount`; once the bound is reached the
record transitions to `errored` with a timeout reason; terminal records
are left untouched. -/
def retryTick (bound : Nat) (r : RRec) : RRec :=
  if r.status = .submitted then
    if r.retryCount < bound then { r with retryCount := r.retryCount + 1 }
    else ⟨.errored, r.retryCount, some .timeout⟩
  else r

/-- A freshly submitted record that has not been re-priced yet. -/
def freshSubmitted : RRec := ⟨.submitted, 0, none⟩

end Engine.Retry

namespace Engine.Indexers

/-- The key set of `INDEXER_REGISTRY`: the chain ids that currently have
a running indexer handle.  Each key holds exactly one handle, so the
registry state relevant to reconciliation is its key list. -/
abbrev Registry := List Nat

/-- Modelled from the spec: `addChainIndexer(chainId)`
(`chain-indexer-registry.ts` is not among the provided sources) registers
the new handle under its chain id (spec §4.5: start an indexer for every
desired chain id without a running handle). -/
def addChainIndexer (reg : Registry) (chainId : Nat) : Registry :=
  reg ++ [chainId]

/-- Modelled from the spec: `removeChainIndexer(chainId)` deregisters the
handle of the given chain id (spec §4.5: stop the indexer of every no
longer desired chain id). -/
def removeChainIndexer (reg : Registry) (chainId : Nat) : Registry :=
  reg.erase chainId

/-- `manageChainIndexers` (`manage-chain-indexers.ts` lines 8-23) run on
its own: add an indexer for every desired chain id not yet in the
registry, then walk the registry keys and remove every id that is no
longer desired. -/
def manageChainIndexers (chainIdsToIndex : List Nat) (reg : Registry) : Registry :=
  let reg1 := chainIdsToIndex.foldl
    (fun r c => if c ∈ r then r else addChainIndexer r c) reg
  reg1.foldl
    (fun r c => if c ∈ chainIdsToIndex then r else removeChainIndexer r c) reg1

/-- The control point of one reconciliation run of `manageChainIndexers`:
working through the add loop, working through the remove loop over the
registry keys it snapshotted, or finished. -/
inductive Phase where
  | adding (pending : List Nat)
  | removing (pending : List Nat)
  | finished
deriving DecidableEq, Repr

/-- A configuration of two concurrent reconciliation runs sharing the
registry. -/
structure Conf where
  registry : Registry
  runA : Phase
  runB : Phase
deriving DecidableEq, Repr

/-- One atomic step of either of two interleaved `manageChainIndexers`
runs over the same desired set `ds`: process one add-loop element
(`addChainIndexer` registers the handle before suspending, so the
check-and-add is atomic), snapshot the registry keys when entering the
remove loop (`for ... in INDEXER_REGISTRY`), process one remove-loop
element, or finish. -/
inductive ManageStep (ds : List Nat) : Conf → Conf → Prop where
  | addA (c : Nat) (cs : List Nat) (R R' : Registry) (b : Phase)
      (h : R' = if c ∈ R then R else addChainIndexer R c) :
      ManageStep ds ⟨R, .adding (c :: cs), b⟩ ⟨R', .adding cs, b⟩
  | snapA (R : Registry) (b : Phase) :
      ManageStep ds ⟨R, .adding [], b⟩ ⟨R, .removing R, b⟩
  | remA (c : Nat) (cs : List Nat) (R R' : Registry) (b : Phase)
      (h : R' = if c ∈ ds then R else removeChainIndexer R c) :
      ManageStep ds ⟨R, .removing (c :: cs), b⟩ ⟨R', .removing cs, b⟩
  | finA (R : Registry) (b : Phase) :
      ManageStep ds ⟨R, .removing [], b⟩ ⟨R, .finished, b⟩
  | addB (c : Nat) (cs : List Nat) (R R' : Registry) (a : Phase)
      (h : R' = if c ∈ R then R else addChainIndexer R c) :
      ManageStep ds ⟨R, a, .adding (c :: cs)⟩ ⟨R', a, .adding cs⟩
  | snapB (R : Registry) (a : Phase) :
      ManageStep ds ⟨R, a, .adding []⟩ ⟨R, a, .removing R⟩
  | remB (c : Nat) (cs : List Nat) (R R' : Registry) (a : Phase)
      (h : R' = if c ∈ ds then R else removeChainIndexer R c) :
      ManageStep ds ⟨R, a, .removing (c :: cs)⟩ ⟨R', a, .removing cs⟩
  | finB (R : Registry) (a : Phase) :
      ManageStep ds ⟨R, a, .removing []⟩ ⟨R, a, .finished⟩

/-- The desired chain ids a run still intends to add. -/
def pendAdd : Phase → List Nat
  | .adding l => l
  | .removing _ => []
  | .finished => []

/-- A run still stands between the chain id and the final registry: it
will either snapshot the id later or still has it in its remove-loop
snapshot. -/
def covers : Phase → Nat → Prop
  | .adding _, _ => True
  | .removing l, c => c ∈ l
  | .finished, _ => False

/-- The reconciliation invariant: the registry keys stay distinct, the
pending add lists only hold desired ids, every desired id is in the
registry or still pending in some run, and every undesired registry id is
still covered by some run's future snapshot or current remove loop. -/
def Inv (ds : List Nat) (cf : Conf) : Prop :=
  cf.registry.Nodup ∧
  (∀ c ∈ pendAdd cf.runA, c ∈ ds) ∧
  (∀ c ∈ pendAdd cf.runB, c ∈ ds) ∧
  (∀ c ∈ ds, c ∈ cf.registry ∨ c ∈ pendAdd cf.runA ∨ c ∈ pendAdd cf.runB) ∧
  (∀ c, c ∉ ds → c ∈ cf.registry → covers cf.runA c ∨ covers cf.runB c)

end Engine.Indexers

namespace Engine.Nonce

open Engine

/-- A sender key `(chainId, from)` (spec §4.2: mutual exclusion and nonce
state are per `(chainId, from)`). -/
abbrev Sender := Nat × Nat

/-- The slice of a record the nonce discipline concerns (spec §3):
identity, sender, assigned nonce (absent until submission) and status. -/
structure NRec where
  id : Nat
  sender : Sender
  nonce : Option Nat
  status : Status
deriving DecidableEq, Repr

/-- Per-sender nonce state (spec §3 `WalletNonceState`): `counter` is the
next fresh nonce (one past `lastAssigned`) and `released` holds the
nonces handed back after signing/broadcast failures, available for
reuse by the next request (spec §4.2). -/
structure SenderNonce where
  counter : Nat
  released : List Nat
deriving DecidableEq, Repr

/-- Modelled from the spec: `nextNonce(chainId, from)` (spec §4.2) — the
Nonce Manager implementation is not among the provided sources.  Reuse a
released nonce when one is available, otherwise hand out the next fresh
nonce and advance the counter. -/
def nextNonce (sn : SenderNonce) : Nat × SenderNonce :=
  match sn.released with
  | n :: rest => (n, ⟨sn.counter, rest⟩)
  | [] => (sn.counter, ⟨sn.counter + 1, []⟩)

/-- The engine state the nonce discipline ranges over: the stored
records, the id generator, and the per-sender nonce state (owned by the
Nonce Manager). -/
structure NState where
  recs : List NRec
  nextId : Nat
  nonces : Sender → SenderNonce

/-- The empty engine: no records, all counters at the chain's initial
nonce 0, nothing released. -/
def initState : NState := ⟨[], 0, fun _ => ⟨0, []⟩⟩

/-- Observable nonce-manager events of a run: an assignment of a nonce
to a sender's transaction, or a release of a nonce back for reuse. -/
inductive NEvent where
  | assign (sd : Sender) (n : Nat)
  | release (sd : Sender) (n : Nat)
deriving DecidableEq, Repr

/-- Modelled from the spec: the atomic operations of the engine core that
touch records and nonces (spec §4.1-§4.4, §5).  `enqueue` creates a
queued record; `submitOk` is the Submission Worker's critical section
(assign the next nonce and move queued→submitted together, spec §4.2);
`submitRejected` is a clear signing/broadcast rejection (assign, fail to
errored, release the nonce, spec §4.3); `reprice` re-signs a submitted
record with the same nonce (spec §4.4); `mineOk`/`mineRevert` finalize a
submitted record from its receipt; `cancel` cancels a queued record; and
`reconcile` raises a sender's counter to the chain-observed account nonce
(spec §4.2). -/
inductive Step where
  | enqueue (sd : Sender)
  | submitOk (id : Nat)
  | submitRejected (id : Nat)
  | reprice (id : Nat)
  | mineOk (id : Nat)
  | mineRevert (id : Nat)
  | cancel (id : Nat)
  | reconcile (sd : Sender) (observed : Nat)
deriving DecidableEq, Repr

/-- First record with the given id. -/
def findRec (recs : List NRec) (id : Nat) : Option NRec :=
  recs.find? (fun r => r.id == id)

/-- Rewrite the record with the given id in place. -/
def setRec (recs : List NRec) (id : Nat) (g : NRec → NRec) : List NRec :=
  recs.map (fun r => if r.id == id then g r else r)

/-- Point update of the per-sender nonce map. -/
def updNonces (m : Sender → SenderNonce) (sd : Sender) (v : SenderNonce) :
    Sender → SenderNonce :=
  fun s => if s = sd then v else m s

/-- One atomic engine step together with the nonce-manager events it
emits.  Steps whose compare-and-set precondition fails (spec §4.1) leave
the state unchanged and emit nothing. -/
def stepFull (s : NState) : Step → NState × List NEvent
  | .enqueue sd =>
    (⟨s.recs ++ [⟨s.nextId, sd, none, .queued⟩], s.nextId + 1, s.nonces⟩, [])
  | .submitOk id =>
    match findRec s.recs id with
    | some r =>
      if r.status = .queued then
        let (n, sn') := nextNonce (s.nonces r.sender)
        (⟨setRec s.recs id (fun r' => { r' with nonce := some n, status := .submitted }),
          s.nextId, updNonces s.nonces r.sender sn'⟩,
         [.assign r.sender n])
      else (s, [])
    | none => (s, [])
  | .submitRejected id =>
    match findRec s.recs id with
    | some r =>
      if r.status = .queued then
        let (n, sn') := nextNonce (s.nonces r.sender)
        (⟨setRec s.recs id (fun r' => { r' with nonce := some n, status := .errored }),
          s.nextId,
          updNonces s.nonces r.sender ⟨sn'.counter, sn'.released ++ [n]⟩⟩,
         [.assign r.sender n, .release r.sender n])
      else (s, [])
    | none => (s, [])
  | .reprice _ => (s, [])
  | .mineOk id =>
    match findRec s.recs id with
    | some r =>
      if r.status = .submitted then
        (⟨setRec s.recs id (fun r' => { r' with status := .mined }),
          s.nextId, s.nonces⟩, [])
      else (s, [])
    | none => (s, [])
  | .mineRevert id =>
    match findRec s.recs id with
    | some r =>
      if r.status = .submitted then
        (⟨setRec s.recs id (fun r' => { r' with status := .errored }),
          s.nextId, s.nonces⟩, [])
      else (s, [])
    | none => (s, [])
  | .cancel id =>
    match findRec s.recs id with
    | some r =>
      if r.status = .queued then
        (⟨setRec s.recs id (fun r' => { r' with status := .cancelled }),
          s.nextId, s.nonces⟩, [])
      else (s, [])
    | none => (s, [])
  | .reconcile sd observed =>
    (⟨s.recs, s.nextId,
      updNonces s.nonces sd ⟨max (s.nonces sd).counter observed, (s.nonces sd).released⟩⟩,
     [])

/-- Run a list of steps, collecting the emitted nonce events in order. -/
def execEv : NState → List Step → NState × List NEvent
  | s, [] => (s, [])
  | s, t :: ts =>
    let (s', ev) := stepFull s t
    let (s'', evs) := execEv s' ts
    (s'', ev ++ evs)

/-- The nonce-discipline invariant, relating an engine state to the
events emitted so far: record ids are distinct and below the generator;
queued records carry no nonce; a non-terminal record's nonce is below its
sender's counter and not in the released pool; two non-terminal records
of one sender never share a nonce; the released pool is duplicate-free,
below the counter, and each of its members was released by a past event;
every past assignment is below the current counter; and every
non-increasing pair of assignments to one sender reuses a nonce released
by an earlier event. -/
def NonceOK (s : NState) (h : List NEvent) : Prop :=
  (s.recs.map (fun r => r.id)).Nodup ∧
  (∀ r ∈ s.recs, r.id < s.nextId) ∧
  (∀ r ∈ s.recs, r.status = .queued → r.nonce = none) ∧
  (∀ r ∈ s.recs, r.status.isTerminal = false → ∀ n, r.nonce = some n →
     n < (s.nonces r.sender).counter ∧ n ∉ (s.nonces r.sender).released) ∧
  (∀ r1 ∈ s.recs, ∀ r2 ∈ s.recs, r1.status.isTerminal = false →
     r2.status.isTerminal = false → r1.sender = r2.sender →
     ∀ n, r1.nonce = some n → r2.nonce = some n → r1.id = r2.id) ∧
  (∀ sd, (s.nonces sd).released.Nodup ∧
     ∀ n ∈ (s.nonces sd).released, n < (s.nonces sd).counter) ∧
  (∀ (k : Nat) sd n, h[k]? = some (NEvent.assign sd n) → n < (s.nonces sd).counter) ∧
  (∀ sd n, n ∈ (s.nonces sd).released →
     ∃ k : Nat, h[k]? = some (NEvent.release sd n)) ∧
  (∀ (i j : Nat) sd ni nj, i < j → h[i]? = some (NEvent.assign sd ni) →
     h[j]? = some (NEvent.assign sd nj) → nj ≤ ni →
     ∃ k : Nat, k < j ∧ h[k]? = some (NEvent.release sd nj))

/-- A demo run for sender `(1, 5)`: the first enqueue is claimed but
rejected at broadcast (nonce 0 assigned and released), then a second
enqueue reuses the released nonce 0. -/
def nonceDemoTrace : List Step :=
  [.enqueue (1, 5), .submitRejected 0, .enqueue (1, 5), .submitOk 1]

end Engine.Nonce

namespace Engine.TxStore

/-- A successful `getRec` returns a member of the store carrying the
requested id. -/
theorem getRec_eq_some {s : Store} {id : Nat} {r : Rec}
    (h : getRec s id = some r) : r ∈ s ∧ r.id = id := by
  unfold getRec at h
  exact ⟨List.mem_of_find?_eq_some h, by simpa using List.find?_some h⟩

/-- Looking up in a store mapped by an id-preserving function is the
mapped lookup. -/
theorem getRec_map_preserve (g : Rec → Rec) (hg : ∀ r, (g r).id = r.id)
    (s : Store) (j : Nat) : getRec (s.map g) j = (getRec s j).map g := by
  unfold getRec
  have hfun : ((fun r : Rec => r.id == j) ∘ g) = (fun r : Rec => r.id == j) := by
    funext r
    simp [Function.comp, hg]
  rw [List.find?_map, hfun]

end Engine.TxStore

namespace Engine.TxStore

/-- C2: `updateStatus` is a compare-and-set on the current status: a
successful update means the attempted transition is one of
queued→submitted, submitted→mined, submitted→errored, queued→cancelled,
queued→errored, submitted→submitted, the record's prior status was
exactly the transition's source, the record's new status is the target,
and every other record is unchanged; when the transition is not allowed
or the current status differs from the source, the update fails with an
error and produces no new store. -/
theorem updateStatus_cas (s : Store) (id : Nat) (src dst : Status) :
    (∀ s', updateStatus s id src dst = .ok s' →
       ((src, dst) ∈ allowedTransitions ∧
        statusOf s id = some src ∧
        statusOf s' id = some dst ∧
        ∀ j, j ≠ id → getRec s' j = getRec s j)) ∧
    (((src, dst) ∉ allowedTransitions ∨ statusOf s id ≠ some src) →
       ∃ e, updateStatus s id src dst = .error e) := by
  have hgid : ∀ r' : Rec,
      ((fun r' : Rec => if r'.id == id then { r' with status := dst } else r') r').id
        = r'.id := by
    intro r'
    dsimp only
    split <;> rfl
  constructor
  · intro s' h
    unfold updateStatus at h
    split at h
    · exact absurd h (by simp)
    · rename_i r heq
      split at h
      · rename_i hc
        obtain ⟨hst, hmem⟩ := hc
        rw [Except.ok.injEq] at h
        subst h
        obtain ⟨hrmem, hrid⟩ := getRec_eq_some heq
        refine ⟨hmem, by simp [statusOf, heq, hst], ?_, ?_⟩
        · rw [statusOf, getRec_map_preserve _ hgid, heq]
          simp [hrid]
        · intro j hj
          rw [getRec_map_preserve _ hgid]
          cases hgj : getRec s j with
          | none => simp
          | some rj =>
            obtain ⟨_, hrjid⟩ := getRec_eq_some hgj
            have : (rj.id == id) = false := by
              simp [hrjid]
              exact hj
            simp only [Option.map_some']
            rw [if_neg (by simp [this])]
      · exact absurd h (by simp)
  · intro hbad
    unfold updateStatus
    split
    · exact ⟨.NotFound, rfl⟩
    · rename_i r heq
      have hcond : ¬(r.status = src ∧ (src, dst) ∈ allowedTransitions) := by
        rintro ⟨h1, h2⟩
        rcases hbad with hb | hb
        · exact hb h2
        · exact hb (by simp [statusOf, heq, h1])
      rw [if_neg hcond]
      exact ⟨.InvalidTransition, rfl⟩

end Engine.TxStore

namespace Engine.TxStore

/-- The record-status rewrite used by `updateStatus` leaves every other
id's lookup unchanged. -/
theorem setStatus_getRec (s : Store) (id : Nat) (dst : Status) (j : Nat)
    (hj : j ≠ id) :
    getRec (s.map (fun r' => if r'.id == id then { r' with status := dst } else r')) j
      = getRec s j := by
  have hgid : ∀ r' : Rec,
      ((fun r' : Rec => if r'.id == id then { r' with status := dst } else r') r').id
        = r'.id := by
    intro r'
    dsimp only
    split <;> rfl
  rw [getRec_map_preserve _ hgid]
  cases hgj : getRec s j with
  | none => simp
  | some rj =>
    obtain ⟨_, hrjid⟩ := getRec_eq_some hgj
    simp only [Option.map_some']
    rw [if_neg (by simp [hrjid, hj])]

/-- The record-status rewrite used by `updateStatus` sets the target
record's status. -/
theorem setStatus_statusOf (s : Store) (id : Nat) (r : Rec) (dst : Status)
    (hr : getRec s id = some r) :
    statusOf (s.map (fun r' => if r'.id == id then { r' with status := dst } else r')) id
      = some dst := by
  have hgid : ∀ r' : Rec,
      ((fun r' : Rec => if r'.id == id then { r' with status := dst } else r') r').id
        = r'.id := by
    intro r'
    dsimp only
    split <;> rfl
  obtain ⟨_, hrid⟩ := getRec_eq_some hr
  rw [statusOf, getRec_map_preserve _ hgid, hr]
  simp [hrid]

/-- C5: for an existing record, `markCancelled` succeeds exactly when the
current status is `queued`, moving the record to the terminal status
`cancelled` and leaving every other record unchanged; for any other
current status (including `submitted`) it fails with `InvalidTransition`
and yields no new store. -/
theorem markCancelled_queued_only (s : Store) (id : Nat) (r : Rec)
    (hr : getRec s id = some r) :
    (r.status = .queued →
       ∃ s', markCancelled s id = .ok s' ∧
         statusOf s' id = some .cancelled ∧
         Status.isTerminal .cancelled = true ∧
         ∀ j, j ≠ id → getRec s' j = getRec s j) ∧
    (r.status ≠ .queued → markCancelled s id = .error .InvalidTransition) := by
  constructor
  · intro hq
    refine ⟨s.map (fun r' => if r'.id == id then { r' with status := .cancelled } else r'),
      ?_, setStatus_statusOf s id r .cancelled hr, rfl,
      fun j hj => setStatus_getRec s id .cancelled j hj⟩
    unfold markCancelled updateStatus
    rw [hr]
    exact if_pos ⟨hq, by decide⟩
  · intro hq
    unfold markCancelled updateStatus
    rw [hr]
    exact if_neg (by rintro ⟨h1, _⟩; exact hq h1)

end Engine.TxStore

namespace Engine.TxStore

/-- Witness for C2 at concrete data: claiming record 0 (queued→submitted)
succeeds with the expected store, and an illegal submitted→mined attempt
on the still-queued record fails. -/
theorem updateStatus_cas_witness :
    ((Status.queued, Status.submitted) ∈ allowedTransitions ∧
     statusOf demoStore 0 = some .queued ∧
     statusOf demoStore1 0 = some .submitted ∧
     getRec demoStore1 1 = getRec demoStore 1) ∧
    (∃ e, updateStatus demoStore 0 .submitted .mined = .error e) := by
  have h := updateStatus_cas demoStore 0 .queued .submitted
  have hok : updateStatus demoStore 0 .queued .submitted = .ok demoStore1 := by rfl
  have h1 := h.1 demoStore1 hok
  exact ⟨⟨h1.1, h1.2.1, h1.2.2.1, h1.2.2.2 1 (by decide)⟩,
    (updateStatus_cas demoStore 0 .submitted .mined).2 (Or.inr (by decide))⟩

/-- Witness for C5 at concrete data: cancelling the queued record 0 of
`demoStore` succeeds, and cancelling the submitted record 0 of
`demoStore1` fails with `InvalidTransition`. -/
theorem markCancelled_queued_only_witness :
    (∃ s', markCancelled demoStore 0 = .ok s' ∧
       statusOf s' 0 = some .cancelled ∧
       Status.isTerminal .cancelled = true ∧
       ∀ j, j ≠ 0 → getRec s' j = getRec demoStore j) ∧
    markCancelled demoStore1 0 = .error .InvalidTransition := by
  refine ⟨(markCancelled_queued_only demoStore 0 ⟨0, 137, 5, none, .queued, none, false⟩ (by decide)).1 rfl,
    (markCancelled_queued_only demoStore1 0 ⟨0, 137, 5, none, .submitted, none, false⟩ (by decide)).2 (by decide)⟩

end Engine.TxStore

namespace Engine.Enq

/-- C3: an enqueue carrying an idempotency key either finds a live (or
recently-succeeded) record with the same key and returns that record's id
with the state unchanged (no new record), or, when no such record exists,
creates exactly one new record with status `queued` under a fresh id that
no existing record carries. -/
theorem insertTransaction_idempotency (st : QueueState) (req : InsertReq)
    (k : Nat) (hk : req.idempotencyKey = some k) (hv : req.valid = true)
    (hfresh : ∀ r ∈ st.recs, r.id < st.nextId) :
    (∀ r, st.recs.find? (idemMatch k) = some r →
       insertTransaction st req = .ok (r.id, st) ∧
       r.idempotencyKey = some k ∧
       (r.status.isTerminal = false ∨ r.recent = true)) ∧
    (st.recs.find? (idemMatch k) = none →
       insertTransaction st req
         = .ok (st.nextId, ⟨st.recs ++ [mkRec st.nextId req], st.nextId + 1⟩) ∧
       (mkRec st.nextId req).status = .queued ∧
       ∀ r ∈ st.recs, r.id ≠ st.nextId) := by
  constructor
  · intro r hr
    have hm := List.find?_some hr
    simp only [idemMatch, Bool.and_eq_true, beq_iff_eq, Bool.or_eq_true,
      Bool.not_eq_true'] at hm
    refine ⟨?_, hm.1, hm.2⟩
    simp [insertTransaction, hv, hk, hr]
  · intro hnone
    refine ⟨?_, rfl, fun r hrmem => Nat.ne_of_lt (hfresh r hrmem)⟩
    simp [insertTransaction, hv, hk, hnone]

/-- Witness for C3 at concrete data: repeating key 42 returns the live
record's id 7 without touching the state; fresh key 99 creates one new
queued record under the fresh id 9. -/
theorem insertTransaction_idempotency_witness :
    (insertTransaction enqDemoState enqDemoReq = .ok (7, enqDemoState)) ∧
    (insertTransaction enqDemoState enqDemoReq2
       = .ok (9, ⟨enqDemoState.recs ++ [mkRec 9 enqDemoReq2], 10⟩)) := by
  refine ⟨?_, ?_⟩
  · exact ((insertTransaction_idempotency enqDemoState enqDemoReq 42 rfl rfl
      (by decide)).1 ⟨7, 1, 2, none, .submitted, some 42, false⟩ (by decide)).1
  · exact ((insertTransaction_idempotency enqDemoState enqDemoReq2 99 rfl rfl
      (by decide)).2 (by decide)).1

end Engine.Enq

namespace Engine.Enq

/-- Helper: a key-less valid request inserts exactly one new queued
record under the next fresh id. -/
theorem insertTransaction_nokey (st : QueueState) (req : InsertReq)
    (hkey : req.idempotencyKey = none) (hv : req.valid = true) :
    insertTransaction st req
      = .ok (st.nextId, ⟨st.recs ++ [mkRec st.nextId req], st.nextId + 1⟩) := by
  simp [insertTransaction, hv, hkey]

/-- Helper: a batch of key-less valid requests inserts one record per
request, in order, and returns the consecutively assigned ids. -/
theorem sendTransactionBatch_ok (reqs : List InsertReq) :
    ∀ st : QueueState, (∀ req ∈ reqs, req.idempotencyKey = none) →
    (∀ req ∈ reqs, req.valid = true) →
    sendTransactionBatch st reqs =
      (.ok (List.range' st.nextId reqs.length),
       ⟨st.recs ++ List.zipWith mkRec (List.range' st.nextId reqs.length) reqs,
        st.nextId + reqs.length⟩) := by
  induction reqs with
  | nil => intro st _ _; simp [sendTransactionBatch]
  | cons req rest ih =>
    intro st hkeys hv
    have hins := insertTransaction_nokey st req (hkeys req (by simp)) (hv req (by simp))
    have ihr := ih ⟨st.recs ++ [mkRec st.nextId req], st.nextId + 1⟩
      (fun r hr => hkeys r (by simp [hr])) (fun r hr => hv r (by simp [hr]))
    simp only [sendTransactionBatch, hins, ihr]
    simp [List.range'_succ, Prod.mk.injEq, QueueState.mk.injEq, List.append_assoc,
      Nat.add_assoc, Nat.add_comm, Nat.add_left_comm]

/-- Helper: a batch aborts at its first invalid request with
`ValidationError`, keeping exactly the records created for the requests
before it. -/
theorem sendTransactionBatch_err (pre : List InsertReq) :
    ∀ (st : QueueState) (bad : InsertReq) (rest : List InsertReq),
    (∀ req ∈ pre, req.idempotencyKey = none) →
    (∀ req ∈ pre, req.valid = true) → bad.valid = false →
    sendTransactionBatch st (pre ++ bad :: rest) =
      (.error .ValidationError,
       ⟨st.recs ++ List.zipWith mkRec (List.range' st.nextId pre.length) pre,
        st.nextId + pre.length⟩) := by
  induction pre with
  | nil =>
    intro st bad rest _ _ hbad
    have hins : insertTransaction st bad = .error .ValidationError := by
      simp [insertTransaction, hbad]
    simp [sendTransactionBatch, hins]
  | cons p ps ih =>
    intro st bad rest hkeys hv hbad
    have hins := insertTransaction_nokey st p (hkeys p (by simp)) (hv p (by simp))
    have ihr := ih ⟨st.recs ++ [mkRec st.nextId p], st.nextId + 1⟩ bad rest
      (fun r hr => hkeys r (by simp [hr])) (fun r hr => hv r (by simp [hr])) hbad
    simp only [List.cons_append, sendTransactionBatch, hins, List.append_eq]
    rw [ihr]
    simp [List.range'_succ, Prod.mk.injEq, QueueState.mk.injEq, List.append_assoc,
      Nat.add_assoc, Nat.add_comm, Nat.add_left_comm]

end Engine.Enq

namespace Engine.Enq

/-- C8: the batch enqueue creates one record per input element, strictly
in list order, returning one queue id per element (the i-th id is the id
of the record created for the i-th request, and the id list has the
input's length); the batch is not atomic: a failing element aborts the
loop with the records created before it still in place. -/
theorem sendTransactionBatch_spec (st : QueueState) (reqs : List InsertReq)
    (hkeys : ∀ req ∈ reqs, req.idempotencyKey = none) :
    ((∀ req ∈ reqs, req.valid = true) →
       sendTransactionBatch st reqs =
         (.ok (List.range' st.nextId reqs.length),
          ⟨st.recs ++ List.zipWith mkRec (List.range' st.nextId reqs.length) reqs,
           st.nextId + reqs.length⟩) ∧
       (List.range' st.nextId reqs.length).length = reqs.length) ∧
    (∀ pre bad rest, reqs = pre ++ bad :: rest →
       (∀ req ∈ pre, req.valid = true) → bad.valid = false →
       sendTransactionBatch st reqs =
         (.error .ValidationError,
          ⟨st.recs ++ List.zipWith mkRec (List.range' st.nextId pre.length) pre,
           st.nextId + pre.length⟩)) := by
  constructor
  · intro hv
    exact ⟨sendTransactionBatch_ok reqs st hkeys hv, List.length_range' _ _ _⟩
  · rintro pre bad rest rfl hv hbad
    exact sendTransactionBatch_err pre st bad rest
      (fun r hr => hkeys r (by simp [hr])) hv hbad

/-- Witness for C8 at concrete data: an all-valid two-element batch from
an empty queue yields ids [0, 1] and two records in order; appending an
invalid third element aborts with `ValidationError` while the first two
records remain created. -/
theorem sendTransactionBatch_spec_witness :
    (sendTransactionBatch (⟨[], 0⟩ : QueueState) batchDemoReqs =
       (.ok (List.range' 0 batchDemoReqs.length),
        ⟨[] ++ List.zipWith mkRec (List.range' 0 batchDemoReqs.length) batchDemoReqs,
         0 + batchDemoReqs.length⟩)) ∧
    (sendTransactionBatch (⟨[], 0⟩ : QueueState) (batchDemoReqs ++ batchDemoBad :: []) =
       (.error .ValidationError,
        ⟨[] ++ List.zipWith mkRec (List.range' 0 batchDemoReqs.length) batchDemoReqs,
         0 + batchDemoReqs.length⟩)) := by
  refine ⟨((sendTransactionBatch_spec ⟨[], 0⟩ batchDemoReqs (by decide)).1 (by decide)).1, ?_⟩
  exact (sendTransactionBatch_spec ⟨[], 0⟩ (batchDemoReqs ++ batchDemoBad :: [])
    (by decide)).2 batchDemoReqs batchDemoBad [] rfl (by decide) (by decide)

end Engine.Enq

namespace Engine.Routes

/-- C6: for every queue id, the status route replies with the
`toTransactionSchema` view of the stored record when one exists, fails
with the 400 `TRANSACTION_NOT_FOUND` client error when none exists, and
in both cases leaves the stored state unchanged. -/
theorem getTransactionStatusRoute_spec (db : TransactionDB) (queueId : String) :
    (∀ t, dbGet db queueId = some t →
       getTransactionStatusRoute db queueId = (.ok (toTransactionSchema t), db)) ∧
    (dbGet db queueId = none →
       getTransactionStatusRoute db queueId =
         (.error (createCustomError "Transaction not found." 400
             "TRANSACTION_NOT_FOUND"), db)) ∧
    (getTransactionStatusRoute db queueId).2 = db := by
  refine ⟨fun t ht => ?_, fun h => ?_, rfl⟩
  · simp [getTransactionStatusRoute, getTransactionStatusReply, ht]
  · simp [getTransactionStatusRoute, getTransactionStatusReply, h]

/-- Witness for C6 at concrete data: looking up the present id returns
its view together with the untouched database, and a missing id yields
the `TRANSACTION_NOT_FOUND` client error. -/
theorem getTransactionStatusRoute_spec_witness :
    (getTransactionStatusRoute demoDB "q1" =
       (.ok (toTransactionSchema ⟨"q1", 137, .submitted, some "0xabc"⟩), demoDB)) ∧
    (getTransactionStatusRoute demoDB "missing" =
       (.error (createCustomError "Transaction not found." 400
           "TRANSACTION_NOT_FOUND"), demoDB)) ∧
    (getTransactionStatusRoute demoDB "q1").2 = demoDB := by
  refine ⟨(getTransactionStatusRoute_spec demoDB "q1").1
      ⟨"q1", 137, .submitted, some "0xabc"⟩ (by decide), ?_,
    (getTransactionStatusRoute_spec demoDB "q1").2.2⟩
  exact (getTransactionStatusRoute_spec demoDB "missing").2.1 (by decide)

end Engine.Routes

namespace Engine.Routes

/-- C9: a logs request identified by queue id only succeeds only if a
record with that id exists and its status is exactly `mined`; when the
record is missing or in any other status the route fails with the 400
`TRANSACTION_NOT_MINED` client error; and the stored state is never
modified. -/
theorem getTransactionLogs_queueId_spec (db : TransactionDB)
    (getReceipt : String → Option Receipt) (parseLogsFlag : Bool)
    (parseResult : Receipt → Except CustomError (List LogEntry))
    (qid : String) :
    (∀ res,
       getTransactionLogsReply db getReceipt parseLogsFlag parseResult
           (some qid) none = .ok res →
       ∃ t, dbGet db qid = some t ∧ t.status = .mined) ∧
    (dbGet db qid = none →
       getTransactionLogsReply db getReceipt parseLogsFlag parseResult
           (some qid) none =
         .error (createCustomError
           "Could not find transaction, or transaction is not mined."
           400 "TRANSACTION_NOT_MINED")) ∧
    (∀ t, dbGet db qid = some t → t.status ≠ .mined →
       getTransactionLogsReply db getReceipt parseLogsFlag parseResult
           (some qid) none =
         .error (createCustomError
           "Could not find transaction, or transaction is not mined."
           400 "TRANSACTION_NOT_MINED")) ∧
    (getTransactionLogs db getReceipt parseLogsFlag parseResult
        (some qid) none).2 = db := by
  refine ⟨?_, fun h => ?_, fun t ht hnm => ?_, rfl⟩
  · intro res hres
    cases hdb : dbGet db qid with
    | none =>
      exfalso
      simp [getTransactionLogsReply, logsFromHash, hdb] at hres
    | some t =>
      refine ⟨t, rfl, ?_⟩
      by_contra hnm
      simp [getTransactionLogsReply, logsFromHash, hdb, hnm] at hres
  · simp [getTransactionLogsReply, logsFromHash, h]
  · simp [getTransactionLogsReply, logsFromHash, ht, hnm]

/-- Witness for C9 at concrete data: the submitted (not mined) record of
`demoDB` and a missing id both yield the `TRANSACTION_NOT_MINED` client
error, and the database is returned untouched. -/
theorem getTransactionLogs_queueId_spec_witness :
    (getTransactionLogsReply demoDB (fun _ => none) true (fun _ => .ok [])
        (some "missing") none =
      .error (createCustomError
        "Could not find transaction, or transaction is not mined."
        400 "TRANSACTION_NOT_MINED")) ∧
    (getTransactionLogsReply demoDB (fun _ => none) true (fun _ => .ok [])
        (some "q1") none =
      .error (createCustomError
        "Could not find transaction, or transaction is not mined."
        400 "TRANSACTION_NOT_MINED")) ∧
    (getTransactionLogs demoDB (fun _ => none) true (fun _ => .ok [])
        (some "q1") none).2 = demoDB := by
  refine ⟨(getTransactionLogs_queueId_spec demoDB (fun _ => none) true
      (fun _ => .ok []) "missing").2.1 (by decide), ?_,
    (getTransactionLogs_queueId_spec demoDB (fun _ => none) true
      (fun _ => .ok []) "q1").2.2.2⟩
  exact (getTransactionLogs_queueId_spec demoDB (fun _ => none) true
    (fun _ => .ok []) "q1").2.2.1 ⟨"q1", 137, .submitted, some "0xabc"⟩
    (by decide) (by decide)

end Engine.Routes

namespace Engine.WalletCache

/-- The wallet map finds the entry just set under the same key. -/
theorem mapGet_cons_self (cache : WalletMap) (k : String) (w : Account) :
    mapGet ((k, w) :: cache) k = some w := by
  simp [mapGet]

/-- C10: `getSmartWalletV5` caches by `(chain.id, accountAddress, from)`
only: a second call with the same three components returns exactly the
wallet the first call produced and leaves the cache unchanged, whatever
`accountFactoryAddress` either call supplies — so the second call's
factory-address argument has no effect on its result. -/
theorem getSmartWalletV5_cache_key (readFactory : Chain → String → String)
    (getAccount : Nat → String → Account)
    (connect : Chain → String → Account → Account)
    (cache : WalletMap) (chain : Chain) (accountAddress fromAddr : String)
    (fa1 fa2 : Option String) :
    (getSmartWalletV5 readFactory getAccount connect
        (getSmartWalletV5 readFactory getAccount connect cache chain
          accountAddress fromAddr fa1).2
        chain accountAddress fromAddr fa2).1
      = (getSmartWalletV5 readFactory getAccount connect cache chain
          accountAddress fromAddr fa1).1 ∧
    (getSmartWalletV5 readFactory getAccount connect
        (getSmartWalletV5 readFactory getAccount connect cache chain
          accountAddress fromAddr fa1).2
        chain accountAddress fromAddr fa2).2
      = (getSmartWalletV5 readFactory getAccount connect cache chain
          accountAddress fromAddr fa1).2 := by
  unfold getSmartWalletV5
  cases hc : mapGet cache (toString chain.id ++ "-" ++ accountAddress ++ "-" ++ fromAddr) with
  | some w => simp [hc]
  | none => simp [hc, mapGet_cons_self]

end Engine.WalletCache

namespace Engine.Retry

/-- While within the escalation bound, the k-th worker pass leaves the
record submitted with exactly k escalations. -/
theorem retryTick_iterate_le (bound : Nat) :
    ∀ k, k ≤ bound → (retryTick bound)^[k] freshSubmitted = ⟨.submitted, k, none⟩ := by
  intro k
  induction k with
  | zero => intro _; rfl
  | succ n ih =>
    intro hk
    rw [Function.iterate_succ_apply', ih (Nat.le_of_succ_le hk)]
    unfold retryTick
    rw [if_pos rfl, if_pos (Nat.lt_of_succ_le hk)]

/-- C7: a submitted record on a chain that never confirms it is escalated
at most `bound` times (its escalation count never exceeds the bound), and
after the bound is exhausted it transitions to `errored` with a timeout
reason and stays there — the retry loop for the record terminates. -/
theorem retryWorker_bounded (bound : Nat) :
    (∀ k, ((retryTick bound)^[k] freshSubmitted).retryCount ≤ bound) ∧
    ((retryTick bound)^[bound + 1] freshSubmitted = ⟨.errored, bound, some .timeout⟩) ∧
    (∀ k, bound + 1 ≤ k →
       (retryTick bound)^[k] freshSubmitted = ⟨.errored, bound, some .timeout⟩) := by
  have hstep : (retryTick bound)^[bound + 1] freshSubmitted
      = ⟨.errored, bound, some .timeout⟩ := by
    rw [Function.iterate_succ_apply', retryTick_iterate_le bound bound le_rfl]
    unfold retryTick
    rw [if_pos rfl, if_neg (Nat.lt_irrefl bound)]
  have hstay : ∀ k, bound + 1 ≤ k →
      (retryTick bound)^[k] freshSubmitted = ⟨.errored, bound, some .timeout⟩ := by
    intro k
    induction k with
    | zero => intro h; exact absurd h (by omega)
    | succ n ih =>
      intro hk
      rcases Nat.lt_or_ge (bound + 1) (n + 1) with hlt | hge
      · rw [Function.iterate_succ_apply', ih (by omega)]
        rfl
      · have : bound + 1 = n + 1 := by omega
        rw [← this]
        exact hstep
  refine ⟨?_, hstep, hstay⟩
  intro k
  rcases Nat.lt_or_ge bound k with hk | hk
  · rw [hstay k (by omega)]
  · rw [retryTick_iterate_le bound k hk]
    exact hk

/-- Witness for C7 at concrete data: with an escalation bound of 3, the
escalation count after 2 passes is within the bound, and after 4 and 10
passes the record is errored with a timeout reason. -/
theorem retryWorker_bounded_witness :
    ((retryTick 3)^[2] freshSubmitted).retryCount ≤ 3 ∧
    (retryTick 3)^[4] freshSubmitted = ⟨.errored, 3, some .timeout⟩ ∧
    (retryTick 3)^[10] freshSubmitted = ⟨.errored, 3, some .timeout⟩ :=
  ⟨(retryWorker_bounded 3).1 2, (retryWorker_bounded 3).2.1,
   (retryWorker_bounded 3).2.2 10 (by omega)⟩

end Engine.Retry

namespace Engine.Indexers

/-- Every atomic reconciliation step preserves the invariant `Inv`. -/
theorem Inv_step {ds : List Nat} {cf cf' : Conf}
    (hs : ManageStep ds cf cf') (hinv : Inv ds cf) : Inv ds cf' := by
  obtain ⟨hnd, hpa, hpb, hall, hcov⟩ := hinv
  cases hs with
  | addA c cs R R' b h =>
    have hcds : c ∈ ds := hpa c (by simp [pendAdd])
    have hsub : ∀ x ∈ R, x ∈ R' := by
      intro x hx
      subst h
      split
      · exact hx
      · simp [addChainIndexer, hx]
    refine ⟨?_, ?_, hpb, ?_, fun x _ _ => Or.inl trivial⟩
    · subst h
      split
      · exact hnd
      · rename_i hc
        simp [addChainIndexer, List.nodup_append, hnd]
        exact hc
    · intro x hx
      exact hpa x (by simp [pendAdd] at hx ⊢; exact Or.inr hx)
    · intro x hxds
      rcases hall x hxds with hR | hA | hB
      · exact Or.inl (hsub x hR)
      · simp [pendAdd] at hA
        rcases hA with rfl | hcs
        · refine Or.inl ?_
          subst h
          split
          · assumption
          · simp [addChainIndexer]
        · exact Or.inr (Or.inl (by simp [pendAdd, hcs]))
      · exact Or.inr (Or.inr hB)
  | snapA R b =>
    refine ⟨hnd, by simp [pendAdd], hpb, ?_, ?_⟩
    · intro x hx
      rcases hall x hx with hR | hA | hB
      · exact Or.inl hR
      · simp [pendAdd] at hA
      · exact Or.inr (Or.inr hB)
    · intro x _ hxR
      exact Or.inl (by simpa [covers] using hxR)
  | remA c cs R R' b h =>
    have hsub : ∀ x ∈ R', x ∈ R := by
      intro x hx
      subst h
      revert hx
      split
      · exact id
      · exact fun hx => List.mem_of_mem_erase hx
    refine ⟨?_, by simp [pendAdd], hpb, ?_, ?_⟩
    · subst h
      split
      · exact hnd
      · exact hnd.erase c
    · intro x hx
      rcases hall x hx with hR | hA | hB
      · refine Or.inl ?_
        subst h
        split
        · exact hR
        · rename_i hcds
          have hne : x ≠ c := fun he => hcds (he ▸ hx)
          exact (List.mem_erase_of_ne hne).mpr hR
      · simp [pendAdd] at hA
      · exact Or.inr (Or.inr hB)
    · intro x hxnds hxR'
      have hxR : x ∈ R := hsub x hxR'
      rcases hcov x hxnds hxR with hA | hB
      · simp only [covers, List.mem_cons] at hA
        rcases hA with rfl | hcs
        · exfalso
          rw [if_neg hxnds] at h
          subst h
          exact ((List.Nodup.mem_erase_iff hnd).mp hxR').1 rfl
        · exact Or.inl (by simp [covers, hcs])
      · exact Or.inr hB
  | finA R b =>
    refine ⟨hnd, by simp [pendAdd], hpb, ?_, ?_⟩
    · intro x hx
      rcases hall x hx with hR | hA | hB
      · exact Or.inl hR
      · simp [pendAdd] at hA
      · exact Or.inr (Or.inr hB)
    · intro x hxnds hxR
      rcases hcov x hxnds hxR with hA | hB
      · simp [covers] at hA
      · exact Or.inr hB
  | addB c cs R R' a h =>
    have hcds : c ∈ ds := hpb c (by simp [pendAdd])
    have hsub : ∀ x ∈ R, x ∈ R' := by
      intro x hx
      subst h
      split
      · exact hx
      · simp [addChainIndexer, hx]
    refine ⟨?_, hpa, ?_, ?_, fun x _ _ => Or.inr trivial⟩
    · subst h
      split
      · exact hnd
      · rename_i hc
        simp [addChainIndexer, List.nodup_append, hnd]
        exact hc
    · intro x hx
      exact hpb x (by simp [pendAdd] at hx ⊢; exact Or.inr hx)
    · intro x hxds
      rcases hall x hxds with hR | hA | hB
      · exact Or.inl (hsub x hR)
      · exact Or.inr (Or.inl hA)
      · simp [pendAdd] at hB
        rcases hB with rfl | hcs
        · refine Or.inl ?_
          subst h
          split
          · assumption
          · simp [addChainIndexer]
        · exact Or.inr (Or.inr (by simp [pendAdd, hcs]))
  | snapB R a =>
    refine ⟨hnd, hpa, by simp [pendAdd], ?_, ?_⟩
    · intro x hx
      rcases hall x hx with hR | hA | hB
      · exact Or.inl hR
      · exact Or.inr (Or.inl hA)
      · simp [pendAdd] at hB
    · intro x _ hxR
      exact Or.inr (by simpa [covers] using hxR)
  | remB c cs R R' a h =>
    have hsub : ∀ x ∈ R', x ∈ R := by
      intro x hx
      subst h
      revert hx
      split
      · exact id
      · exact fun hx => List.mem_of_mem_erase hx
    refine ⟨?_, hpa, by simp [pendAdd], ?_, ?_⟩
    · subst h
      split
      · exact hnd
      · exact hnd.erase c
    · intro x hx
      rcases hall x hx with hR | hA | hB
      · refine Or.inl ?_
        subst h
        split
        · exact hR
        · rename_i hcds
          have hne : x ≠ c := fun he => hcds (he ▸ hx)
          exact (List.mem_erase_of_ne hne).mpr hR
      · exact Or.inr (Or.inl hA)
      · simp [pendAdd] at hB
    · intro x hxnds hxR'
      have hxR : x ∈ R := hsub x hxR'
      rcases hcov x hxnds hxR with hA | hB
      · exact Or.inl hA
      · simp only [covers, List.mem_cons] at hB
        rcases hB with rfl | hcs
        · exfalso
          rw [if_neg hxnds] at h
          subst h
          exact ((List.Nodup.mem_erase_iff hnd).mp hxR').1 rfl
        · exact Or.inr (by simp [covers, hcs])
  | finB R a =>
    refine ⟨hnd, hpa, by simp [pendAdd], ?_, ?_⟩
    · intro x hx
      rcases hall x hx with hR | hA | hB
      · exact Or.inl hR
      · exact Or.inr (Or.inl hA)
      · simp [pendAdd] at hB
    · intro x hxnds hxR
      rcases hcov x hxnds hxR with hA | hB
      · exact Or.inl hA
      · simp [covers] at hB

end Engine.Indexers

namespace Engine.Indexers

/-- The invariant holds in every configuration reachable from one
satisfying it. -/
theorem Inv_reach {ds : List Nat} {cf cf' : Conf}
    (h : Relation.ReflTransGen (ManageStep ds) cf cf') (hinv : Inv ds cf) :
    Inv ds cf' := by
  induction h with
  | refl => exact hinv
  | tail _ hstep ih => exact Inv_step hstep ih

/-- The invariant holds when both runs start their add loops over the
desired set against a duplicate-free registry. -/
theorem Inv_start (ds : List Nat) (reg : Registry) (hnd : reg.Nodup) :
    Inv ds ⟨reg, .adding ds, .adding ds⟩ :=
  ⟨hnd, fun c hc => by simpa [pendAdd] using hc,
   fun c hc => by simpa [pendAdd] using hc,
   fun c hc => Or.inr (Or.inl (by simpa [pendAdd] using hc)),
   fun c _ _ => Or.inl trivial⟩

/-- Once both runs have finished, the invariant pins the registry down to
exactly the desired set, without duplicates. -/
theorem Inv_final {ds : List Nat} {R : Registry}
    (h : Inv ds ⟨R, .finished, .finished⟩) :
    R.Nodup ∧ ∀ c, c ∈ R ↔ c ∈ ds := by
  obtain ⟨hnd, _, _, hall, hcov⟩ := h
  refine ⟨hnd, fun c => ⟨fun hc => ?_, fun hc => ?_⟩⟩
  · by_contra hnds
    rcases hcov c hnds hc with h | h <;> simp [covers] at h
  · rcases hall c hc with hR | hA | hB
    · exact hR
    · simp [pendAdd] at hA
    · simp [pendAdd] at hB

/-- Membership after the add loop: the registry gains exactly the
desired ids it was missing. -/
theorem addLoop_mem (ds : List Nat) : ∀ (reg : Registry) (c : Nat),
    c ∈ ds.foldl (fun r x => if x ∈ r then r else addChainIndexer r x) reg ↔
      c ∈ reg ∨ c ∈ ds := by
  induction ds with
  | nil => intro reg c; simp
  | cons d rest ih =>
    intro reg c
    rw [List.foldl_cons, ih]
    by_cases hd : d ∈ reg
    · rw [if_pos hd]
      simp only [List.mem_cons]
      constructor
      · rintro (h | h)
        · exact Or.inl h
        · exact Or.inr (Or.inr h)
      · rintro (h | rfl | h)
        · exact Or.inl h
        · exact Or.inl hd
        · exact Or.inr h
    · rw [if_neg hd]
      simp [addChainIndexer, or_assoc]

/-- The add loop keeps the registry keys distinct. -/
theorem addLoop_nodup (ds : List Nat) : ∀ reg : Registry, reg.Nodup →
    (ds.foldl (fun r x => if x ∈ r then r else addChainIndexer r x) reg).Nodup := by
  induction ds with
  | nil => intro reg h; simpa
  | cons d rest ih =>
    intro reg h
    rw [List.foldl_cons]
    apply ih
    split
    · exact h
    · rename_i hd
      simp [addChainIndexer, List.nodup_append, h]
      exact hd

/-- Membership after the remove loop over a key snapshot: an id survives
exactly when it was present and is either desired or outside the
snapshot. -/
theorem remLoop_mem (ds keys : List Nat) : ∀ (reg : Registry), reg.Nodup →
    ∀ c, c ∈ keys.foldl (fun r x => if x ∈ ds then r else removeChainIndexer r x) reg ↔
      c ∈ reg ∧ (c ∈ ds ∨ c ∉ keys) := by
  induction keys with
  | nil => intro reg _ c; simp
  | cons k ks ih =>
    intro reg hnd c
    rw [List.foldl_cons]
    by_cases hk : k ∈ ds
    · rw [if_pos hk, ih reg hnd c]
      constructor
      · rintro ⟨hcreg, hds | hks⟩
        · exact ⟨hcreg, Or.inl hds⟩
        · by_cases hck : c = k
          · exact ⟨hcreg, Or.inl (hck ▸ hk)⟩
          · exact ⟨hcreg, Or.inr (by simp [hck, hks])⟩
      · rintro ⟨hcreg, hds | hkks⟩
        · exact ⟨hcreg, Or.inl hds⟩
        · exact ⟨hcreg, Or.inr (fun h => hkks (by simp [h]))⟩
    · rw [if_neg hk,
        ih (removeChainIndexer reg k) (hnd.erase k) c,
        show removeChainIndexer reg k = reg.erase k from rfl,
        List.Nodup.mem_erase_iff hnd]
      constructor
      · rintro ⟨⟨hck, hcreg⟩, hds | hks⟩
        · exact ⟨hcreg, Or.inl hds⟩
        · exact ⟨hcreg, Or.inr (by simp [hck, hks])⟩
      · rintro ⟨hcreg, hds | hkks⟩
        · have hck : c ≠ k := fun he => hk (he ▸ hds)
          exact ⟨⟨hck, hcreg⟩, Or.inl hds⟩
        · have hck : c ≠ k := fun he => hkks (by simp [he])
          exact ⟨⟨hck, hcreg⟩, Or.inr (fun h => hkks (by simp [h]))⟩

/-- The remove loop keeps the registry keys distinct. -/
theorem remLoop_nodup (ds keys : List Nat) : ∀ reg : Registry, reg.Nodup →
    (keys.foldl (fun r x => if x ∈ ds then r else removeChainIndexer r x) reg).Nodup := by
  induction keys with
  | nil => intro reg h; simpa
  | cons k ks ih =>
    intro reg h
    rw [List.foldl_cons]
    apply ih
    split
    · exact h
    · exact h.erase k

/-- A single reconciliation run leaves the registry holding exactly the
desired ids. -/
theorem manageChainIndexers_mem (ds : List Nat) (reg : Registry)
    (hnd : reg.Nodup) : ∀ c, c ∈ manageChainIndexers ds reg ↔ c ∈ ds := by
  intro c
  have hnd1 := addLoop_nodup ds reg hnd
  simp only [manageChainIndexers]
  rw [remLoop_mem ds _ _ hnd1 c]
  constructor
  · rintro ⟨h1, hds | hnk⟩
    · exact hds
    · exact absurd h1 hnk
  · intro hds
    exact ⟨(addLoop_mem ds reg c).mpr (Or.inr hds), Or.inl hds⟩

/-- A reconciliation run never duplicates a registry key. -/
theorem manageChainIndexers_nodup (ds : List Nat) (reg : Registry)
    (hnd : reg.Nodup) : (manageChainIndexers ds reg).Nodup := by
  simp only [manageChainIndexers]
  exact remLoop_nodup ds _ _ (addLoop_nodup ds reg hnd)

/-- The add loop does nothing when every desired id is already
registered. -/
theorem addLoop_fixed (ds : List Nat) : ∀ reg : Registry,
    (∀ d ∈ ds, d ∈ reg) →
    ds.foldl (fun r x => if x ∈ r then r else addChainIndexer r x) reg = reg := by
  induction ds with
  | nil => intro reg _; rfl
  | cons d rest ih =>
    intro reg h
    rw [List.foldl_cons, if_pos (h d (by simp))]
    exact ih reg (fun x hx => h x (by simp [hx]))

/-- The remove loop does nothing when every snapshotted key is
desired. -/
theorem remLoop_fixed (ds keys : List Nat) : ∀ reg : Registry,
    (∀ k ∈ keys, k ∈ ds) →
    keys.foldl (fun r x => if x ∈ ds then r else removeChainIndexer r x) reg = reg := by
  induction keys with
  | nil => intro reg _; rfl
  | cons k ks ih =>
    intro reg h
    rw [List.foldl_cons, if_pos (h k (by simp))]
    exact ih reg (fun x hx => h x (by simp [hx]))

/-- Running the reconciliation a second time changes nothing. -/
theorem manageChainIndexers_idem (ds : List Nat) (reg : Registry)
    (hnd : reg.Nodup) :
    manageChainIndexers ds (manageChainIndexers ds reg)
      = manageChainIndexers ds reg := by
  have hmem := manageChainIndexers_mem ds reg hnd
  generalize hR : manageChainIndexers ds reg = R' at hmem ⊢
  simp only [manageChainIndexers]
  rw [addLoop_fixed ds R' (fun d hd => (hmem d).mpr hd)]
  exact remLoop_fixed ds R' R' (fun k hk => (hmem k).mp hk)

end Engine.Indexers

namespace Engine.Indexers

/-- C4: reconciliation is idempotent and concurrency-safe.  After one
`manageChainIndexers` run over desired set `ds` the registry holds
exactly one indexer key per desired chain id and none outside `ds`, a
second run with the same `ds` changes nothing, and any interleaving of
two reconciliation runs for the same `ds` that drives both to completion
also leaves exactly one indexer per desired chain id (no duplicates, no
leaks). -/
theorem manageChainIndexers_reconcile (ds : List Nat) (reg : Registry)
    (hnd : reg.Nodup) :
    ((manageChainIndexers ds reg).Nodup ∧
     (∀ c, c ∈ manageChainIndexers ds reg ↔ c ∈ ds) ∧
     manageChainIndexers ds (manageChainIndexers ds reg)
       = manageChainIndexers ds reg) ∧
    (∀ R' : Registry,
       Relation.ReflTransGen (ManageStep ds)
         ⟨reg, .adding ds, .adding ds⟩ ⟨R', .finished, .finished⟩ →
       R'.Nodup ∧ ∀ c, c ∈ R' ↔ c ∈ ds) :=
  ⟨⟨manageChainIndexers_nodup ds reg hnd,
    manageChainIndexers_mem ds reg hnd,
    manageChainIndexers_idem ds reg hnd⟩,
   fun _ hreach => Inv_final (Inv_reach hreach (Inv_start ds reg hnd))⟩

/-- Witness for C4 at concrete data: with desired set `[1, 2]` and prior
registry `[2, 3]`, a fully interleaved double run reaching `[2, 1]` is
duplicate-free and contains chain 1, and the sequential run is a
fixpoint. -/
theorem manageChainIndexers_reconcile_witness :
    ([2, 1] : Registry).Nodup ∧
    ((1 : Nat) ∈ ([2, 1] : Registry) ↔ (1 : Nat) ∈ ([1, 2] : List Nat)) ∧
    manageChainIndexers [1, 2] (manageChainIndexers [1, 2] [2, 3])
      = manageChainIndexers [1, 2] [2, 3] := by
  have h := manageChainIndexers_reconcile [1, 2] [2, 3] (by decide)
  have hreach : Relation.ReflTransGen (ManageStep [1, 2])
      ⟨[2, 3], .adding [1, 2], .adding [1, 2]⟩ ⟨[2, 1], .finished, .finished⟩ := by
    refine .head (ManageStep.addA 1 [2] [2, 3] [2, 3, 1] (.adding [1, 2]) (by decide)) ?_
    refine .head (ManageStep.addA 2 [] [2, 3, 1] [2, 3, 1] (.adding [1, 2]) (by decide)) ?_
    refine .head (ManageStep.snapA [2, 3, 1] (.adding [1, 2])) ?_
    refine .head (ManageStep.remA 2 [3, 1] [2, 3, 1] [2, 3, 1] (.adding [1, 2]) (by decide)) ?_
    refine .head (ManageStep.remA 3 [1] [2, 3, 1] [2, 1] (.adding [1, 2]) (by decide)) ?_
    refine .head (ManageStep.remA 1 [] [2, 1] [2, 1] (.adding [1, 2]) (by decide)) ?_
    refine .head (ManageStep.finA [2, 1] (.adding [1, 2])) ?_
    refine .head (ManageStep.addB 1 [2] [2, 1] [2, 1] .finished (by decide)) ?_
    refine .head (ManageStep.addB 2 [] [2, 1] [2, 1] .finished (by decide)) ?_
    refine .head (ManageStep.snapB [2, 1] .finished) ?_
    refine .head (ManageStep.remB 2 [1] [2, 1] [2, 1] .finished (by decide)) ?_
    refine .head (ManageStep.remB 1 [] [2, 1] [2, 1] .finished (by decide)) ?_
    exact .single (ManageStep.finB [2, 1] .finished)
  obtain ⟨hnod, hmem⟩ := h.2 [2, 1] hreach
  exact ⟨hnod, hmem 1, h.1.2.2⟩

end Engine.Indexers

namespace Engine.Nonce

/-- A present index: `l[k]? = some a` bounds `k`. -/
theorem getElem?_some_lt {α : Type} {l : List α} {k : Nat} {a : α}
    (h : l[k]? = some a) : k < l.length := by
  by_contra hk
  rw [List.getElem?_eq_none_iff.mpr (Nat.le_of_not_lt hk)] at h
  cases h

/-- A successful `findRec` returns a member carrying the requested id. -/
theorem findRec_eq_some {recs : List NRec} {id : Nat} {r : NRec}
    (h : findRec recs id = some r) : r ∈ recs ∧ r.id = id := by
  unfold findRec at h
  exact ⟨List.mem_of_find?_eq_some h, by simpa using List.find?_some h⟩

/-- `setRec` with an id-preserving rewrite keeps the id list. -/
theorem setRec_map_id (recs : List NRec) (id : Nat) (g : NRec → NRec)
    (hg : ∀ x, (g x).id = x.id) :
    (setRec recs id g).map (fun r => r.id) = recs.map (fun r => r.id) := by
  unfold setRec
  rw [List.map_map]
  congr 1
  funext x
  dsimp [Function.comp]
  split
  · rw [hg]
  · rfl

/-- With distinct ids, a member of `setRec recs id g` is either the
rewritten target record or an untouched record of a different id. -/
theorem setRec_cases {recs : List NRec} (hnd : (recs.map (fun r => r.id)).Nodup)
    {id : Nat} {r : NRec} (hr : r ∈ recs) (hrid : r.id = id) (g : NRec → NRec) :
    ∀ x' ∈ setRec recs id g, x' = g r ∨ (x' ∈ recs ∧ x'.id ≠ id) := by
  intro x' hx'
  unfold setRec at hx'
  rw [List.mem_map] at hx'
  obtain ⟨x, hx, hxe⟩ := hx'
  by_cases hid : x.id = id
  · have hxr : x = r := List.inj_on_of_nodup_map hnd hx hr (by rw [hid, hrid])
    subst hxr
    left
    rw [← hxe]
    simp [hid]
  · right
    have hxx : x' = x := by rw [← hxe]; simp [hid]
    rw [hxx]
    exact ⟨hx, hid⟩

/-- Finalizing one record (submitted→mined, submitted→errored or
queued→cancelled) preserves the nonce invariant: the record becomes
terminal and nothing else changes. -/
theorem NonceOK_finalize (s : NState) (h : List NEvent) (id : Nat)
    (st' : Status) (hterm : st'.isTerminal = true) (hok : NonceOK s h) :
    NonceOK ⟨setRec s.recs id (fun r' => { r' with status := st' }),
      s.nextId, s.nonces⟩ h := by
  obtain ⟨g1, g2, g3, g4, g5, g6, g7, g8, g9⟩ := hok
  have hgid : ∀ x : NRec, ({ x with status := st' } : NRec).id = x.id :=
    fun _ => rfl
  have hmem : ∀ x' ∈ setRec s.recs id (fun r' => { r' with status := st' }),
      (x' ∈ s.recs ∧ x'.status.isTerminal = x'.status.isTerminal) ∨
      (∃ x ∈ s.recs, x' = { x with status := st' }) := by
    intro x' hx'
    unfold setRec at hx'
    rw [List.mem_map] at hx'
    obtain ⟨x, hx, hxe⟩ := hx'
    by_cases hid : x.id = id
    · exact Or.inr ⟨x, hx, by rw [← hxe]; simp [hid]⟩
    · exact Or.inl ⟨by rw [← hxe]; simpa [hid], rfl⟩
  refine ⟨?_, ?_, ?_, ?_, ?_, g6, g7, g8, g9⟩
  · rw [setRec_map_id _ _ _ hgid]
    exact g1
  · intro x' hx'
    rcases hmem x' hx' with ⟨hx, _⟩ | ⟨x, hx, rfl⟩
    · exact g2 x' hx
    · exact g2 x hx
  · intro x' hx' hq
    rcases hmem x' hx' with ⟨hx, _⟩ | ⟨x, hx, rfl⟩
    · exact g3 x' hx hq
    · exfalso
      have : st' = .queued := hq
      rw [this] at hterm
      cases hterm
  · intro x' hx' hnt n hn
    rcases hmem x' hx' with ⟨hx, _⟩ | ⟨x, hx, rfl⟩
    · exact g4 x' hx hnt n hn
    · exfalso
      rw [show ({ x with status := st' } : NRec).status = st' from rfl, hterm] at hnt
      cases hnt
  · intro x' hx' y' hy' hntx hnty hsd n hnx hny
    rcases hmem x' hx' with ⟨hx, _⟩ | ⟨x, hx, rfl⟩
    · rcases hmem y' hy' with ⟨hy, _⟩ | ⟨y, hy, rfl⟩
      · exact g5 x' hx y' hy hntx hnty hsd n hnx hny
      · exfalso
        rw [show ({ y with status := st' } : NRec).status = st' from rfl, hterm] at hnty
        cases hnty
    · exfalso
      rw [show ({ x with status := st' } : NRec).status = st' from rfl, hterm] at hntx
      cases hntx

end Engine.Nonce

namespace Engine.Nonce

/-- Claiming a queued record (assigning nonce `n` and moving it to
`submitted` in one critical section) preserves the nonce invariant,
provided `n` is either a previously released nonce or the sender's fresh
counter value, and the updated sender state keeps the invariant-relevant
facts. -/
theorem NonceOK_submitOk_aux (s : NState) (h : List NEvent) (id : Nat)
    (r : NRec) (hok : NonceOK s h) (hr_mem : r ∈ s.recs) (hr_id : r.id = id)
    (hq : r.status = .queued) (n : Nat) (sn' : SenderNonce)
    (hcnt : (s.nonces r.sender).counter ≤ sn'.counter)
    (hn_lt : n < sn'.counter) (hn_notin : n ∉ sn'.released)
    (hsub : ∀ m ∈ sn'.released, m ∈ (s.nonces r.sender).released)
    (hnd' : sn'.released.Nodup)
    (hcase : n ∈ (s.nonces r.sender).released ∨ n = (s.nonces r.sender).counter) :
    NonceOK
      ⟨setRec s.recs id (fun r' => { r' with nonce := some n, status := .submitted }),
       s.nextId, updNonces s.nonces r.sender sn'⟩
      (h ++ [NEvent.assign r.sender n]) := by
  obtain ⟨g1, g2, g3, g4, g5, g6, g7, g8, g9⟩ := hok
  have hupd_sd : updNonces s.nonces r.sender sn' r.sender = sn' := by
    simp [updNonces]
  have hupd_ne : ∀ sd', sd' ≠ r.sender →
      updNonces s.nonces r.sender sn' sd' = s.nonces sd' := by
    intro sd' hne
    simp [updNonces, hne]
  have hcnt_all : ∀ sd',
      (s.nonces sd').counter ≤ (updNonces s.nonces r.sender sn' sd').counter := by
    intro sd'
    by_cases hsd : sd' = r.sender
    · subst hsd
      rw [hupd_sd]
      exact hcnt
    · rw [hupd_ne sd' hsd]
  have hcases := setRec_cases g1 hr_mem hr_id
    (fun r' => { r' with nonce := some n, status := .submitted })
  have hnonce_clash : ∀ y ∈ s.recs, y.status.isTerminal = false →
      y.sender = r.sender → y.nonce = some n → False := by
    intro y hy hnty hsd hny
    obtain ⟨hlt, hnin⟩ := g4 y hy hnty n hny
    rw [hsd] at hlt hnin
    rcases hcase with hrel | hfresh
    · exact hnin hrel
    · rw [hfresh] at hlt
      exact Nat.lt_irrefl _ hlt
  unfold NonceOK
  dsimp only
  refine ⟨?_, ?_, ?_, ?_, ?_, ?_, ?_, ?_, ?_⟩
  · rw [setRec_map_id s.recs id
      (fun r' => { r' with nonce := some n, status := .submitted }) (fun _ => rfl)]
    exact g1
  · intro x' hx'
    rcases hcases x' hx' with rfl | ⟨hx, _⟩
    · exact hr_id ▸ g2 r hr_mem
    · exact g2 x' hx
  · intro x' hx' hq'
    rcases hcases x' hx' with rfl | ⟨hx, _⟩
    · exact absurd hq' (by simp)
    · exact g3 x' hx hq'
  · intro x' hx' hnt m hm
    rcases hcases x' hx' with rfl | ⟨hx, _⟩
    · have hmn : m = n := by
        simpa using hm.symm
      subst hmn
      show m < (updNonces s.nonces r.sender sn' r.sender).counter ∧
        m ∉ (updNonces s.nonces r.sender sn' r.sender).released
      rw [hupd_sd]
      exact ⟨hn_lt, hn_notin⟩
    · obtain ⟨hlt, hnin⟩ := g4 x' hx hnt m hm
      by_cases hsd : x'.sender = r.sender
      · rw [hsd, hupd_sd]
        rw [hsd] at hlt hnin
        refine ⟨Nat.lt_of_lt_of_le hlt hcnt, fun hmem => hnin (hsub m hmem)⟩
      · rw [hupd_ne x'.sender hsd]
        exact ⟨hlt, hnin⟩
  · intro x' hx' y' hy' hntx hnty hsd m hmx hmy
    rcases hcases x' hx' with rfl | ⟨hx, _⟩
    · rcases hcases y' hy' with rfl | ⟨hy, _⟩
      · rfl
      · exfalso
        have hmn : m = n := by simpa using hmx.symm
        subst hmn
        exact hnonce_clash y' hy hnty (by simpa using hsd.symm) hmy
    · rcases hcases y' hy' with rfl | ⟨hy, _⟩
      · exfalso
        have hmn : m = n := by simpa using hmy.symm
        subst hmn
        exact hnonce_clash x' hx hntx (by simpa using hsd) hmx
      · exact g5 x' hx y' hy hntx hnty hsd m hmx hmy
  · intro sd'
    by_cases hsd : sd' = r.sender
    · subst hsd
      rw [hupd_sd]
      exact ⟨hnd', fun m hm =>
        Nat.lt_of_lt_of_le ((g6 r.sender).2 m (hsub m hm)) hcnt⟩
    · rw [hupd_ne sd' hsd]
      exact g6 sd'
  · intro k sd' m hk
    have hklen := getElem?_some_lt hk
    rcases Nat.lt_or_ge k h.length with hlt | hge
    · rw [List.getElem?_append_left hlt] at hk
      exact Nat.lt_of_lt_of_le (g7 k sd' m hk) (hcnt_all sd')
    · have hkeq : k = h.length := by
        simp at hklen
        omega
      subst hkeq
      rw [List.getElem?_concat_length] at hk
      rw [Option.some.injEq, NEvent.assign.injEq] at hk
      obtain ⟨rfl, rfl⟩ := hk
      rw [hupd_sd]
      exact hn_lt
  · intro sd' m hm
    by_cases hsd : sd' = r.sender
    · subst hsd
      rw [hupd_sd] at hm
      obtain ⟨k, hk⟩ := g8 r.sender m (hsub m hm)
      exact ⟨k, by rw [List.getElem?_append_left (getElem?_some_lt hk)]; exact hk⟩
    · rw [hupd_ne sd' hsd] at hm
      obtain ⟨k, hk⟩ := g8 sd' m hm
      exact ⟨k, by rw [List.getElem?_append_left (getElem?_some_lt hk)]; exact hk⟩
  · intro i j sd' ni nj hij hi hj hle
    have hjlen := getElem?_some_lt hj
    rcases Nat.lt_or_ge j h.length with hjlt | hjge
    · rw [List.getElem?_append_left hjlt] at hj
      rw [List.getElem?_append_left (Nat.lt_trans hij hjlt)] at hi
      obtain ⟨k, hkj, hk⟩ := g9 i j sd' ni nj hij hi hj hle
      exact ⟨k, hkj,
        by rw [List.getElem?_append_left (Nat.lt_trans hkj hjlt)]; exact hk⟩
    · have hjeq : j = h.length := by
        simp at hjlen
        omega
      subst hjeq
      rw [List.getElem?_concat_length] at hj
      rw [Option.some.injEq, NEvent.assign.injEq] at hj
      obtain ⟨rfl, rfl⟩ := hj
      rw [List.getElem?_append_left hij] at hi
      rcases hcase with hrel | hfresh
      · obtain ⟨k, hk⟩ := g8 r.sender n hrel
        have hklt := getElem?_some_lt hk
        exact ⟨k, hklt,
          by rw [List.getElem?_append_left hklt]; exact hk⟩
      · exfalso
        have := g7 i r.sender ni hi
        rw [← hfresh] at this
        omega

end Engine.Nonce

namespace Engine.Nonce

/-- A clear signing/broadcast rejection (assign nonce `n`, fail the
record to the terminal `errored`, release `n` back to the pool in the
same critical section) preserves the nonce invariant. -/
theorem NonceOK_submitRejected_aux (s : NState) (h : List NEvent) (id : Nat)
    (r : NRec) (hok : NonceOK s h) (hr_mem : r ∈ s.recs) (hr_id : r.id = id)
    (hq : r.status = .queued) (n : Nat) (sn' : SenderNonce)
    (hcnt : (s.nonces r.sender).counter ≤ sn'.counter)
    (hn_lt : n < sn'.counter) (hn_notin : n ∉ sn'.released)
    (hsub : ∀ m ∈ sn'.released, m ∈ (s.nonces r.sender).released)
    (hnd' : sn'.released.Nodup)
    (hcase : n ∈ (s.nonces r.sender).released ∨ n = (s.nonces r.sender).counter) :
    NonceOK
      ⟨setRec s.recs id (fun r' => { r' with nonce := some n, status := .errored }),
       s.nextId,
       updNonces s.nonces r.sender ⟨sn'.counter, sn'.released ++ [n]⟩⟩
      (h ++ [NEvent.assign r.sender n, NEvent.release r.sender n]) := by
  obtain ⟨g1, g2, g3, g4, g5, g6, g7, g8, g9⟩ := hok
  have hupd_sd : updNonces s.nonces r.sender ⟨sn'.counter, sn'.released ++ [n]⟩ r.sender
      = ⟨sn'.counter, sn'.released ++ [n]⟩ := by
    simp [updNonces]
  have hupd_ne : ∀ sd', sd' ≠ r.sender →
      updNonces s.nonces r.sender ⟨sn'.counter, sn'.released ++ [n]⟩ sd' = s.nonces sd' := by
    intro sd' hne
    simp [updNonces, hne]
  have hcnt_all : ∀ sd', (s.nonces sd').counter ≤
      (updNonces s.nonces r.sender ⟨sn'.counter, sn'.released ++ [n]⟩ sd').counter := by
    intro sd'
    by_cases hsd : sd' = r.sender
    · subst hsd
      rw [hupd_sd]
      exact hcnt
    · rw [hupd_ne sd' hsd]
  have hcases := setRec_cases g1 hr_mem hr_id
    (fun r' => { r' with nonce := some n, status := .errored })
  have hsplit : h ++ [NEvent.assign r.sender n, NEvent.release r.sender n]
      = (h ++ [NEvent.assign r.sender n]) ++ [NEvent.release r.sender n] := by
    simp
  have hgetA : (h ++ [NEvent.assign r.sender n, NEvent.release r.sender n])[h.length]?
      = some (NEvent.assign r.sender n) := by
    rw [hsplit, List.getElem?_append_left (by simp)]
    exact List.getElem?_concat_length _ _
  have hgetB : (h ++ [NEvent.assign r.sender n, NEvent.release r.sender n])[h.length + 1]?
      = some (NEvent.release r.sender n) := by
    rw [hsplit, show h.length + 1 = (h ++ [NEvent.assign r.sender n]).length by simp]
    exact List.getElem?_concat_length _ _
  have hlift : ∀ (k : Nat), k < h.length →
      (h ++ [NEvent.assign r.sender n, NEvent.release r.sender n])[k]? = h[k]? := by
    intro k hk
    exact List.getElem?_append_left hk
  unfold NonceOK
  dsimp only
  refine ⟨?_, ?_, ?_, ?_, ?_, ?_, ?_, ?_, ?_⟩
  · rw [setRec_map_id s.recs id
      (fun r' => { r' with nonce := some n, status := .errored }) (fun _ => rfl)]
    exact g1
  · intro x' hx'
    rcases hcases x' hx' with rfl | ⟨hx, _⟩
    · exact hr_id ▸ g2 r hr_mem
    · exact g2 x' hx
  · intro x' hx' hq'
    rcases hcases x' hx' with rfl | ⟨hx, _⟩
    · exact absurd hq' (by simp)
    · exact g3 x' hx hq'
  · intro x' hx' hnt m hm
    rcases hcases x' hx' with rfl | ⟨hx, _⟩
    · exact absurd hnt (by simp [Status.isTerminal])
    · obtain ⟨hlt, hnin⟩ := g4 x' hx hnt m hm
      by_cases hsd : x'.sender = r.sender
      · rw [hsd, hupd_sd]
        rw [hsd] at hlt hnin
        refine ⟨Nat.lt_of_lt_of_le hlt hcnt, ?_⟩
        intro hmem
        rw [List.mem_append] at hmem
        rcases hmem with hmem | hmem
        · exact hnin (hsub m hmem)
        · rw [List.mem_singleton] at hmem
          subst hmem
          rcases hcase with hrel | hfresh
          · exact hnin hrel
          · rw [hfresh] at hlt
            exact Nat.lt_irrefl _ hlt
      · rw [hupd_ne x'.sender hsd]
        exact ⟨hlt, hnin⟩
  · intro x' hx' y' hy' hntx hnty hsd m hmx hmy
    rcases hcases x' hx' with rfl | ⟨hx, _⟩
    · exact absurd hntx (by simp [Status.isTerminal])
    · rcases hcases y' hy' with rfl | ⟨hy, _⟩
      · exact absurd hnty (by simp [Status.isTerminal])
      · exact g5 x' hx y' hy hntx hnty hsd m hmx hmy
  · intro sd'
    by_cases hsd : sd' = r.sender
    · subst hsd
      rw [hupd_sd]
      constructor
      · simp only [List.nodup_append, List.nodup_cons, List.not_mem_nil,
          not_false_eq_true, List.nodup_nil, and_true, true_and]
        refine ⟨hnd', ?_⟩
        intro m hm
        simp only [List.mem_singleton]
        intro he
        exact hn_notin (he ▸ hm)
      · intro m hm
        rw [List.mem_append] at hm
        rcases hm with hm | hm
        · exact Nat.lt_of_lt_of_le ((g6 r.sender).2 m (hsub m hm)) hcnt
        · rw [List.mem_singleton] at hm
          subst hm
          exact hn_lt
    · rw [hupd_ne sd' hsd]
      exact g6 sd'
  · intro k sd' m hk
    have hklen := getElem?_some_lt hk
    simp only [List.length_append, List.length_cons, List.length_nil] at hklen
    rcases Nat.lt_or_ge k h.length with hlt | hge
    · rw [hlift k hlt] at hk
      exact Nat.lt_of_lt_of_le (g7 k sd' m hk) (hcnt_all sd')
    · rcases Nat.lt_or_ge k (h.length + 1) with hlt1 | hge1
      · have hkeq : k = h.length := by omega
        subst hkeq
        rw [hgetA, Option.some.injEq, NEvent.assign.injEq] at hk
        obtain ⟨rfl, rfl⟩ := hk
        rw [hupd_sd]
        exact hn_lt
      · have hkeq : k = h.length + 1 := by omega
        subst hkeq
        rw [hgetB] at hk
        simp at hk
  · intro sd' m hm
    by_cases hsd : sd' = r.sender
    · subst hsd
      rw [hupd_sd] at hm
      rw [List.mem_append] at hm
      rcases hm with hm | hm
      · obtain ⟨k, hk⟩ := g8 r.sender m (hsub m hm)
        exact ⟨k, by rw [hlift k (getElem?_some_lt hk)]; exact hk⟩
      · rw [List.mem_singleton] at hm
        subst hm
        exact ⟨h.length + 1, hgetB⟩
    · rw [hupd_ne sd' hsd] at hm
      obtain ⟨k, hk⟩ := g8 sd' m hm
      exact ⟨k, by rw [hlift k (getElem?_some_lt hk)]; exact hk⟩
  · intro i j sd' ni nj hij hi hj hle
    have hjlen := getElem?_some_lt hj
    simp only [List.length_append, List.length_cons, List.length_nil] at hjlen
    rcases Nat.lt_or_ge j h.length with hjlt | hjge
    · rw [hlift j hjlt] at hj
      rw [hlift i (Nat.lt_trans hij hjlt)] at hi
      obtain ⟨k, hkj, hk⟩ := g9 i j sd' ni nj hij hi hj hle
      exact ⟨k, hkj, by rw [hlift k (Nat.lt_trans hkj hjlt)]; exact hk⟩
    · rcases Nat.lt_or_ge j (h.length + 1) with hjlt1 | hjge1
      · have hjeq : j = h.length := by omega
        subst hjeq
        rw [hgetA, Option.some.injEq, NEvent.assign.injEq] at hj
        obtain ⟨rfl, rfl⟩ := hj
        rw [hlift i hij] at hi
        rcases hcase with hrel | hfresh
        · obtain ⟨k, hk⟩ := g8 r.sender n hrel
          have hklt := getElem?_some_lt hk
          exact ⟨k, hklt, by rw [hlift k hklt]; exact hk⟩
        · exfalso
          have := g7 i r.sender ni hi
          rw [← hfresh] at this
          omega
      · have hjeq : j = h.length + 1 := by omega
        subst hjeq
        rw [hgetB] at hj
        simp at hj

end Engine.Nonce

namespace Engine.Nonce

/-- Creating a queued record under a fresh id preserves the nonce
invariant: the new record has no nonce yet. -/
theorem NonceOK_enqueue (s : NState) (h : List NEvent) (sd : Sender)
    (hok : NonceOK s h) :
    NonceOK ⟨s.recs ++ [⟨s.nextId, sd, none, .queued⟩], s.nextId + 1, s.nonces⟩ h := by
  obtain ⟨g1, g2, g3, g4, g5, g6, g7, g8, g9⟩ := hok
  unfold NonceOK
  dsimp only
  refine ⟨?_, ?_, ?_, ?_, ?_, g6, g7, g8, g9⟩
  · have hfresh : s.nextId ∉ s.recs.map (fun r => r.id) := by
      rw [List.mem_map]
      rintro ⟨x, hx, hxe⟩
      have := g2 x hx
      omega
    rw [List.map_append]
    simp only [List.map_cons, List.map_nil]
    rw [List.nodup_append]
    refine ⟨g1, List.nodup_singleton _, ?_⟩
    intro x hx
    simp only [List.mem_singleton]
    intro he
    exact hfresh (he ▸ hx)
  · intro x hx
    rcases List.mem_append.mp hx with hx | hx
    · exact Nat.lt_trans (g2 x hx) (Nat.lt_succ_self _)
    · rw [List.mem_singleton] at hx
      subst hx
      exact Nat.lt_succ_self _
  · intro x hx hq
    rcases List.mem_append.mp hx with hx | hx
    · exact g3 x hx hq
    · rw [List.mem_singleton] at hx
      subst hx
      rfl
  · intro x hx hnt m hm
    rcases List.mem_append.mp hx with hx | hx
    · exact g4 x hx hnt m hm
    · rw [List.mem_singleton] at hx
      subst hx
      cases hm
  · intro x hx y hy hntx hnty hsd m hmx hmy
    rcases List.mem_append.mp hx with hx | hx
    · rcases List.mem_append.mp hy with hy | hy
      · exact g5 x hx y hy hntx hnty hsd m hmx hmy
      · rw [List.mem_singleton] at hy
        subst hy
        cases hmy
    · rw [List.mem_singleton] at hx
      subst hx
      cases hmx

/-- Raising a sender's counter to the chain-observed account nonce
preserves the nonce invariant: the counter only grows and the released
pool is untouched. -/
theorem NonceOK_reconcile (s : NState) (h : List NEvent) (sd : Sender)
    (observed : Nat) (hok : NonceOK s h) :
    NonceOK ⟨s.recs, s.nextId,
      updNonces s.nonces sd
        ⟨max (s.nonces sd).counter observed, (s.nonces sd).released⟩⟩ h := by
  obtain ⟨g1, g2, g3, g4, g5, g6, g7, g8, g9⟩ := hok
  have hcnt_all : ∀ sd', (s.nonces sd').counter ≤
      (updNonces s.nonces sd
        ⟨max (s.nonces sd).counter observed, (s.nonces sd).released⟩ sd').counter := by
    intro sd'
    by_cases hsd : sd' = sd
    · subst hsd
      simp [updNonces, Nat.le_max_left]
    · simp [updNonces, hsd]
  have hrel_all : ∀ sd',
      (updNonces s.nonces sd
        ⟨max (s.nonces sd).counter observed, (s.nonces sd).released⟩ sd').released
      = (s.nonces sd').released := by
    intro sd'
    by_cases hsd : sd' = sd
    · subst hsd
      simp [updNonces]
    · simp [updNonces, hsd]
  unfold NonceOK
  dsimp only
  refine ⟨g1, g2, g3, ?_, g5, ?_, ?_, ?_, g9⟩
  · intro x hx hnt m hm
    obtain ⟨hlt, hnin⟩ := g4 x hx hnt m hm
    rw [hrel_all]
    exact ⟨Nat.lt_of_lt_of_le hlt (hcnt_all _), hnin⟩
  · intro sd'
    rw [hrel_all]
    exact ⟨(g6 sd').1, fun m hm => Nat.lt_of_lt_of_le ((g6 sd').2 m hm) (hcnt_all sd')⟩
  · intro k sd' m hk
    exact Nat.lt_of_lt_of_le (g7 k sd' m hk) (hcnt_all sd')
  · intro sd' m hm
    rw [hrel_all] at hm
    exact g8 sd' m hm

end Engine.Nonce

namespace Engine.Nonce

/-- Every atomic engine step preserves the nonce invariant, with the
events it emits appended to the history. -/
theorem NonceOK_step (s : NState) (h : List NEvent) (t : Step)
    (hok : NonceOK s h) :
    NonceOK (stepFull s t).1 (h ++ (stepFull s t).2) := by
  cases t with
  | enqueue sd =>
    have hstep : stepFull s (.enqueue sd)
        = (⟨s.recs ++ [⟨s.nextId, sd, none, .queued⟩], s.nextId + 1, s.nonces⟩, []) := rfl
    rw [hstep]
    simpa using NonceOK_enqueue s h sd hok
  | reprice id =>
    have hstep : stepFull s (.reprice id) = (s, []) := rfl
    rw [hstep]
    simpa using hok
  | reconcile sd observed =>
    have hstep : stepFull s (.reconcile sd observed)
        = (⟨s.recs, s.nextId,
            updNonces s.nonces sd
              ⟨max (s.nonces sd).counter observed, (s.nonces sd).released⟩⟩, []) := rfl
    rw [hstep]
    simpa using NonceOK_reconcile s h sd observed hok
  | mineOk id =>
    cases hfind : findRec s.recs id with
    | none =>
      have hstep : stepFull s (.mineOk id) = (s, []) := by simp [stepFull, hfind]
      rw [hstep]
      simpa using hok
    | some r =>
      by_cases hst : r.status = .submitted
      · have hstep : stepFull s (.mineOk id)
            = (⟨setRec s.recs id (fun r' => { r' with status := .mined }),
                s.nextId, s.nonces⟩, []) := by
          simp [stepFull, hfind, hst]
        rw [hstep]
        simpa using NonceOK_finalize s h id .mined rfl hok
      · have hstep : stepFull s (.mineOk id) = (s, []) := by
          simp [stepFull, hfind, hst]
        rw [hstep]
        simpa using hok
  | mineRevert id =>
    cases hfind : findRec s.recs id with
    | none =>
      have hstep : stepFull s (.mineRevert id) = (s, []) := by simp [stepFull, hfind]
      rw [hstep]
      simpa using hok
    | some r =>
      by_cases hst : r.status = .submitted
      · have hstep : stepFull s (.mineRevert id)
            = (⟨setRec s.recs id (fun r' => { r' with status := .errored }),
                s.nextId, s.nonces⟩, []) := by
          simp [stepFull, hfind, hst]
        rw [hstep]
        simpa using NonceOK_finalize s h id .errored rfl hok
      · have hstep : stepFull s (.mineRevert id) = (s, []) := by
          simp [stepFull, hfind, hst]
        rw [hstep]
        simpa using hok
  | cancel id =>
    cases hfind : findRec s.recs id with
    | none =>
      have hstep : stepFull s (.cancel id) = (s, []) := by simp [stepFull, hfind]
      rw [hstep]
      simpa using hok
    | some r =>
      by_cases hst : r.status = .queued
      · have hstep : stepFull s (.cancel id)
            = (⟨setRec s.recs id (fun r' => { r' with status := .cancelled }),
                s.nextId, s.nonces⟩, []) := by
          simp [stepFull, hfind, hst]
        rw [hstep]
        simpa using NonceOK_finalize s h id .cancelled rfl hok
      · have hstep : stepFull s (.cancel id) = (s, []) := by
          simp [stepFull, hfind, hst]
        rw [hstep]
        simpa using hok
  | submitOk id =>
    cases hfind : findRec s.recs id with
    | none =>
      have hstep : stepFull s (.submitOk id) = (s, []) := by simp [stepFull, hfind]
      rw [hstep]
      simpa using hok
    | some r =>
      by_cases hq : r.status = .queued
      · obtain ⟨hr_mem, hr_id⟩ := findRec_eq_some hfind
        cases hrel : (s.nonces r.sender).released with
        | nil =>
          have hnn : nextNonce (s.nonces r.sender)
              = ((s.nonces r.sender).counter,
                 ⟨(s.nonces r.sender).counter + 1, []⟩) := by
            unfold nextNonce
            rw [hrel]
          have hstep : stepFull s (.submitOk id)
              = (⟨setRec s.recs id
                    (fun r' => { r' with nonce := some (s.nonces r.sender).counter, status := .submitted }),
                  s.nextId,
                  updNonces s.nonces r.sender ⟨(s.nonces r.sender).counter + 1, []⟩⟩,
                 [NEvent.assign r.sender (s.nonces r.sender).counter]) := by
            simp [stepFull, hfind, hq, hnn]
          rw [hstep]
          exact NonceOK_submitOk_aux s h id r hok hr_mem hr_id hq _ _
            (Nat.le_succ _) (Nat.lt_succ_self _) (by simp) (by simp)
            List.nodup_nil (Or.inr rfl)
        | cons m rest =>
          have hg6 := hok.2.2.2.2.2.1
          have hnd : (m :: rest).Nodup := by
            rw [← hrel]
            exact (hg6 r.sender).1
          have hnn : nextNonce (s.nonces r.sender)
              = (m, ⟨(s.nonces r.sender).counter, rest⟩) := by
            unfold nextNonce
            rw [hrel]
          have hstep : stepFull s (.submitOk id)
              = (⟨setRec s.recs id
                    (fun r' => { r' with nonce := some m, status := .submitted }),
                  s.nextId,
                  updNonces s.nonces r.sender ⟨(s.nonces r.sender).counter, rest⟩⟩,
                 [NEvent.assign r.sender m]) := by
            simp [stepFull, hfind, hq, hnn]
          rw [hstep]
          refine NonceOK_submitOk_aux s h id r hok hr_mem hr_id hq m
            ⟨(s.nonces r.sender).counter, rest⟩ le_rfl ?_ ?_ ?_ ?_ ?_
          · exact (hg6 r.sender).2 m (by rw [hrel]; simp)
          · exact (List.nodup_cons.mp hnd).1
          · intro x hx
            rw [hrel]
            simp only [List.mem_cons]
            exact Or.inr hx
          · exact (List.nodup_cons.mp hnd).2
          · exact Or.inl (by rw [hrel]; simp)
      · have hstep : stepFull s (.submitOk id) = (s, []) := by
          simp [stepFull, hfind, hq]
        rw [hstep]
        simpa using hok
  | submitRejected id =>
    cases hfind : findRec s.recs id with
    | none =>
      have hstep : stepFull s (.submitRejected id) = (s, []) := by
        simp [stepFull, hfind]
      rw [hstep]
      simpa using hok
    | some r =>
      by_cases hq : r.status = .queued
      · obtain ⟨hr_mem, hr_id⟩ := findRec_eq_some hfind
        cases hrel : (s.nonces r.sender).released with
        | nil =>
          have hnn : nextNonce (s.nonces r.sender)
              = ((s.nonces r.sender).counter,
                 ⟨(s.nonces r.sender).counter + 1, []⟩) := by
            unfold nextNonce
            rw [hrel]
          have hstep : stepFull s (.submitRejected id)
              = (⟨setRec s.recs id
                    (fun r' => { r' with nonce := some (s.nonces r.sender).counter, status := .errored }),
                  s.nextId,
                  updNonces s.nonces r.sender
                    ⟨(s.nonces r.sender).counter + 1,
                     [] ++ [(s.nonces r.sender).counter]⟩⟩,
                 [NEvent.assign r.sender (s.nonces r.sender).counter,
                  NEvent.release r.sender (s.nonces r.sender).counter]) := by
            simp [stepFull, hfind, hq, hnn]
          rw [hstep]
          exact NonceOK_submitRejected_aux s h id r hok hr_mem hr_id hq _
            ⟨(s.nonces r.sender).counter + 1, []⟩
            (Nat.le_succ _) (Nat.lt_succ_self _) (by simp) (by simp)
            List.nodup_nil (Or.inr rfl)
        | cons m rest =>
          have hg6 := hok.2.2.2.2.2.1
          have hnd : (m :: rest).Nodup := by
            rw [← hrel]
            exact (hg6 r.sender).1
          have hnn : nextNonce (s.nonces r.sender)
              = (m, ⟨(s.nonces r.sender).counter, rest⟩) := by
            unfold nextNonce
            rw [hrel]
          have hstep : stepFull s (.submitRejected id)
              = (⟨setRec s.recs id
                    (fun r' => { r' with nonce := some m, status := .errored }),
                  s.nextId,
                  updNonces s.nonces r.sender
                    ⟨(s.nonces r.sender).counter, rest ++ [m]⟩⟩,
                 [NEvent.assign r.sender m, NEvent.release r.sender m]) := by
            simp [stepFull, hfind, hq, hnn]
          rw [hstep]
          refine NonceOK_submitRejected_aux s h id r hok hr_mem hr_id hq m
            ⟨(s.nonces r.sender).counter, rest⟩ le_rfl ?_ ?_ ?_ ?_ ?_
          · exact (hg6 r.sender).2 m (by rw [hrel]; simp)
          · exact (List.nodup_cons.mp hnd).1
          · intro x hx
            rw [hrel]
            simp only [List.mem_cons]
            exact Or.inr hx
          · exact (List.nodup_cons.mp hnd).2
          · exact Or.inl (by rw [hrel]; simp)
      · have hstep : stepFull s (.submitRejected id) = (s, []) := by
          simp [stepFull, hfind, hq]
        rw [hstep]
        simpa using hok

end Engine.Nonce

namespace Engine.Nonce

/-- The nonce invariant holds after any run from a state satisfying
it. -/
theorem NonceOK_exec : ∀ (ts : List Step) (s : NState) (h : List NEvent),
    NonceOK s h → NonceOK (execEv s ts).1 (h ++ (execEv s ts).2) := by
  intro ts
  induction ts with
  | nil =>
    intro s h hok
    simpa [execEv] using hok
  | cons t ts ih =>
    intro s h hok
    have h2 := ih (stepFull s t).1 (h ++ (stepFull s t).2) (NonceOK_step s h t hok)
    have hstep : execEv s (t :: ts)
        = ((execEv (stepFull s t).1 ts).1,
           (stepFull s t).2 ++ (execEv (stepFull s t).1 ts).2) := rfl
    rw [hstep]
    dsimp only
    rw [← List.append_assoc]
    exact h2

/-- The empty engine satisfies the nonce invariant with an empty
history. -/
theorem NonceOK_init : NonceOK initState [] := by
  unfold NonceOK initState
  refine ⟨?_, ?_, ?_, ?_, ?_, ?_, ?_, ?_, ?_⟩ <;> simp

/-- C1: in every run of the engine from the empty state, record ids stay
distinct and at any instant at most one non-terminal record of a given
`(chainId, from)` holds a given nonce (two non-terminal records of one
sender sharing a nonce are the same record); and the nonces assigned
over time to a fixed sender are strictly increasing in assignment order
except that a nonce may be reassigned after an explicit release — every
non-increasing later assignment is of a nonce some earlier event
released (releases happen only on signing/broadcast failure,
`Step.submitRejected`). -/
theorem nonce_discipline (ts : List Step) :
    (((execEv initState ts).1.recs.map (fun r => r.id)).Nodup) ∧
    (∀ r1 ∈ (execEv initState ts).1.recs, ∀ r2 ∈ (execEv initState ts).1.recs,
       r1.status.isTerminal = false → r2.status.isTerminal = false →
       r1.sender = r2.sender → ∀ n, r1.nonce = some n → r2.nonce = some n →
       r1.id = r2.id) ∧
    (∀ (i j : Nat) sd ni nj, i < j →
       (execEv initState ts).2[i]? = some (NEvent.assign sd ni) →
       (execEv initState ts).2[j]? = some (NEvent.assign sd nj) → nj ≤ ni →
       ∃ k : Nat, k < j ∧ (execEv initState ts).2[k]? = some (NEvent.release sd nj)) := by
  have h := NonceOK_exec ts initState [] NonceOK_init
  rw [List.nil_append] at h
  obtain ⟨g1, _, _, _, g5, _, _, _, g9⟩ := h
  exact ⟨g1, g5, g9⟩

/-- Witness for C1 at a concrete run (`nonceDemoTrace`): the resulting
ids are distinct, the single nonce-holding non-terminal record is
self-consistent, and the reuse of nonce 0 by the third assignment event
is preceded by its release. -/
theorem nonce_discipline_witness :
    (((execEv initState nonceDemoTrace).1.recs.map (fun r => r.id)).Nodup) ∧
    ((⟨1, (1, 5), some 0, .submitted⟩ : NRec).id
       = (⟨1, (1, 5), some 0, .submitted⟩ : NRec).id) ∧
    (∃ k : Nat, k < 2 ∧
       (execEv initState nonceDemoTrace).2[k]?
         = some (NEvent.release (1, 5) 0)) := by
  refine ⟨(nonce_discipline nonceDemoTrace).1, ?_, ?_⟩
  · exact (nonce_discipline nonceDemoTrace).2.1
      ⟨1, (1, 5), some 0, .submitted⟩ (by decide)
      ⟨1, (1, 5), some 0, .submitted⟩ (by decide)
      (by decide) (by decide) rfl 0 rfl rfl
  · exact (nonce_discipline nonceDemoTrace).2.2 0 2 (1, 5) 0 0
      (by decide) (by decide) (by decide) (by decide)

end Engine.Nonce
